import Mathlib

/-!
# Verification of the crypto daily-data sync core

Shallow embedding of `get_crypto_data.py` and `get_crypto_data_binance.py`.

Modelling conventions:
* A Python `datetime` is modelled as a `Nat`: milliseconds since the Unix
  epoch (UTC).  `datetime.utcnow().replace(hour=0, ...)` becomes `midnight`,
  `timedelta(days=1)` becomes `oneDay`, `int(dt.timestamp() * 1000)` is the
  identity, and `datetime.fromtimestamp(ms / 1000)` is likewise the identity
  (the embedding keeps millisecond precision throughout).
* The `strftime('%Y-%m-%d')` dedupe key of a timestamp is its calendar day,
  i.e. `dayKey t = t / 86400000`: two timestamps render the same `%Y-%m-%d`
  string exactly when they fall in the same UTC day.
* Prices/volumes (Python floats that are only parsed and stored, never
  computed with) are carried as `Int`.
* The upstream HTTP API is a black box `U : UpstreamParams → Except String
  (List Kline)`: `.error` models a raised request exception, `.ok` a JSON
  kline page.  The pure reference behaviour `upstreamKlines` implements the
  documented Binance `/klines` contract: with a `startTime` the oldest
  matching bars (ascending, capped at `limit`) are returned, without one the
  most recent `limit` bars.
* Unbounded Python `while` loops are given a fuel parameter; `none` means
  the fuel ran out (never the behaviour of the program, and every theorem
  about a terminating run supplies enough fuel).
* MongoDB storage is a `List AssetDoc`; `find_one`/`update_one` operate on
  the first document whose `symbol` matches, as Mongo does.
-/

deriving instance DecidableEq for Except

namespace CryptoSync

/-- Milliseconds in one day (`timedelta(days=1)`). -/
def oneDay : Nat := 86400000

/-- The UTC calendar day of a millisecond timestamp (the `%Y-%m-%d` key). -/
def dayKey (t : Nat) : Nat := t / oneDay

/-- `dt.replace(hour=0, minute=0, second=0, microsecond=0)` for a UTC time. -/
def midnight (t : Nat) : Nat := dayKey t * oneDay

/-- One row of the Binance `/klines` response:
`[open_time, open, high, low, close, volume, ...]`. -/
structure Kline where
  openTime : Nat
  openP : Int
  highP : Int
  lowP : Int
  closeP : Int
  volumeP : Int
deriving DecidableEq, Repr

/-- One element of an asset's `dayline` array. -/
structure DailyBar where
  date : Nat
  openP : Int
  highP : Int
  lowP : Int
  closeP : Int
  volumeP : Int
deriving DecidableEq, Repr

/-- The per-kline conversion done in the body of the fetch loop
(`date = fromtimestamp(kline[0]/1000)`, `open = float(kline[1])`, ...). -/
def toBar (k : Kline) : DailyBar :=
  { date := k.openTime, openP := k.openP, highP := k.highP,
    lowP := k.lowP, closeP := k.closeP, volumeP := k.volumeP }

/-- The query-string parameters of a `/klines` request
(`symbol` and `interval='1d'` are fixed and omitted). -/
structure UpstreamParams where
  startTime : Option Nat
  endTime : Option Nat
  limit : Nat
deriving DecidableEq, Repr

/-- Does a kline pass the request's `startTime` filter? -/
def startOk (p : UpstreamParams) (k : Kline) : Bool :=
  match p.startTime with
  | none => true
  | some s => decide (s ≤ k.openTime)

/-- Does a kline pass the request's (inclusive) `endTime` filter? -/
def endOk (p : UpstreamParams) (k : Kline) : Bool :=
  match p.endTime with
  | none => true
  | some e => decide (k.openTime ≤ e)

/-- Reference semantics of the Binance `/klines` endpoint over a full
history `hist`: the bars inside the requested window, oldest first and
capped at `limit` when `startTime` is present, the most recent `limit`
bars when it is absent. -/
def upstreamKlines (hist : List Kline) (p : UpstreamParams) : List Kline :=
  let f := hist.filter (fun k => startOk p k && endOk p k)
  match p.startTime with
  | some _ => f.take p.limit
  | none => f.drop (f.length - p.limit)

/-- The fault-free upstream built from a fixed history. -/
def pureU (hist : List Kline) : UpstreamParams → Except String (List Kline) :=
  fun p => .ok (upstreamKlines hist p)

/-- An upstream (of unknown content and reliability) that at least honours
the documented `startTime`/`endTime` request window. -/
def RespectsWindow (U : UpstreamParams → Except String (List Kline)) : Prop :=
  ∀ p ks, U p = .ok ks → ∀ k ∈ ks, startOk p k = true ∧ endOk p k = true

/-! ## `make_request` (get_crypto_data_binance.py lines 30-47) -/

def REQUEST_TIMEOUT : Nat := 30
def MAX_RETRIES : Nat := 3
def RETRY_DELAY : Nat := 5

/-- The retry loop body of `make_request`.  `net a` is the outcome of the
`a`-th `requests.get` attempt; the returned list records every
`time.sleep(RETRY_DELAY)` executed.  `none` models falling off the `for`
loop (impossible while `MAX_RETRIES > 0`). -/
def makeRequestGo {ε α : Type} (net : Nat → Except ε α) :
    Nat → Nat → List Nat → Option (Except ε α × List Nat)
  | 0, _, _ => none
  | r + 1, attempt, delays =>
    match net attempt with
    | .ok v => some (.ok v, delays)
    | .error e =>
      if attempt = MAX_RETRIES - 1 then some (.error e, delays)
      else makeRequestGo net r (attempt + 1) (delays ++ [RETRY_DELAY])

/-- `make_request`: up to `MAX_RETRIES` attempts, sleeping `RETRY_DELAY`
seconds after each failed non-final attempt; the exception of the final
attempt is re-raised. -/
def make_request {ε α : Type} (net : Nat → Except ε α) :
    Option (Except ε α × List Nat) :=
  makeRequestGo net MAX_RETRIES 0 []

/-! ## `fetch_crypto_daily_binance` (get_crypto_data_binance.py lines 81-176) -/

/-- `int(datetime(2017, 8, 1).timestamp() * 1000)` with the clock in UTC:
the hard-coded Binance launch-date floor. -/
def BINANCE_FLOOR_MS : Nat := 1501545600000

/-- The `for kline in klines` body: convert, dedupe by calendar day via
`seen_dates`, append to `all_daily_data`. -/
def processKlines : List Kline → List DailyBar → List Nat → List DailyBar × List Nat
  | [], all, seen => (all, seen)
  | k :: rest, all, seen =>
    if dayKey k.openTime ∈ seen then processKlines rest all seen
    else processKlines rest (all ++ [toBar k]) (dayKey k.openTime :: seen)

/-- `klines[-1][0]` (only used on non-empty pages). -/
def lastTime (ks : List Kline) : Nat :=
  (ks.getLastD ⟨0, 0, 0, 0, 0, 0⟩).openTime

/-- The `while True` pagination loop of `fetch_crypto_daily_binance`.
`hasStart` records whether the caller supplied `start_date` (the
`if not start_date and 'endTime' in params` branch).  The returned list of
params is the log of issued upstream requests, oldest first. -/
def fetchLoop (U : UpstreamParams → Except String (List Kline)) (hasStart : Bool) :
    Nat → UpstreamParams → List DailyBar → List Nat → List UpstreamParams →
    Option (Except String (List DailyBar × List UpstreamParams))
  | 0, _, _, _, _ => none
  | fuel + 1, params, all, seen, log =>
    match U params with
    | .error e => some (.error e)
    | .ok klines =>
      if klines = [] then some (.ok (all, log ++ [params]))
      else
        let pr := processKlines klines all seen
        if klines.length < 1000 then
          if !hasStart && params.endTime.isSome then
            fetchLoop U hasStart fuel
              { startTime := none, endTime := none, limit := params.limit }
              pr.1 pr.2 (log ++ [params])
          else some (.ok (pr.1, log ++ [params]))
        else
          fetchLoop U hasStart fuel
            { startTime := some (lastTime klines + 1), endTime := params.endTime,
              limit := params.limit }
            pr.1 pr.2 (log ++ [params])

/-- `all_daily_data.sort(key=lambda x: x['date'])`: Python's stable
ascending sort by key, modelled by Mathlib's stable `insertionSort`
(extensionally the same function for a total transitive comparison). -/
def sortByDate (l : List DailyBar) : List DailyBar :=
  l.insertionSort (fun a b => a.date ≤ b.date)

/-- Sort the collected bars of a successful run (the code after the loop). -/
def finishFetch :
    Option (Except String (List DailyBar × List UpstreamParams)) →
    Option (Except String (List DailyBar × List UpstreamParams))
  | some (.ok (all, log)) => some (.ok (sortByDate all, log))
  | r => r

/-- `fetch_crypto_daily_binance(symbol, start_date)`.  With a `start_date`
the loop starts there; without one a probe request learns the most recent
timestamp, then the loop pages from the launch-date floor up to it (the
probe is the first logged request). -/
def fetch_crypto_daily_binance (U : UpstreamParams → Except String (List Kline))
    (fuel : Nat) (start_date : Option Nat) :
    Option (Except String (List DailyBar × List UpstreamParams)) :=
  match start_date with
  | some sd =>
    finishFetch (fetchLoop U true fuel
      { startTime := some sd, endTime := none, limit := 1000 } [] [] [])
  | none =>
    match U { startTime := none, endTime := none, limit := 1000 } with
    | .error e => some (.error e)
    | .ok recent =>
      let params : UpstreamParams :=
        if recent = [] then { startTime := none, endTime := none, limit := 1000 }
        else { startTime := some BINANCE_FLOOR_MS, endTime := some (lastTime recent),
               limit := 1000 }
      finishFetch (fetchLoop U false fuel params [] []
        [{ startTime := none, endTime := none, limit := 1000 }])

/-! ## Storage and orchestrator (get_crypto_data.py) -/

/-- One document of the `crypto_data` collection (well-formed shape). -/
structure AssetDoc where
  name : String
  symbol : String
  dayline : List DailyBar
deriving DecidableEq, Repr

/-- `collection.find_one({'symbol': symbol}, ...)`: first matching document. -/
def find_one (st : List AssetDoc) (sym : String) : Option AssetDoc :=
  st.find? (fun a => a.symbol == sym)

/-- `update_one({'symbol': sym}, {'$set': {'dayline': bars}})`. -/
def updateOneSet : List AssetDoc → String → List DailyBar → List AssetDoc
  | [], _, _ => []
  | a :: rest, sym, bars =>
    if a.symbol == sym then { a with dayline := bars } :: rest
    else a :: updateOneSet rest sym bars

/-- `update_one({'symbol': sym}, {'$push': {'dayline': {'$each': bars}}})`. -/
def updateOnePush : List AssetDoc → String → List DailyBar → List AssetDoc
  | [], _, _ => []
  | a :: rest, sym, bars =>
    if a.symbol == sym then { a with dayline := a.dayline ++ bars } :: rest
    else a :: updateOnePush rest sym bars

/-- A per-symbol upstream: `Ua sym` answers the `/klines` requests for that
trading pair. -/
def SymUpstream : Type := String → UpstreamParams → Except String (List Kline)

/-- `fetch_crypto_daily(symbol, start_date)` (get_crypto_data.py lines
65-85): look at the last stored bar; if it is on or after today's UTC
midnight, return `[]` without touching the upstream; if there is a last bar
the effective start is recomputed as `last_date + timedelta(days=1)`;
otherwise the caller's `start_date` is used.  `now` is `datetime.utcnow()`.
Returns the fetched bars together with the log of issued upstream
requests. -/
def fetch_crypto_daily (U : UpstreamParams → Except String (List Kline))
    (now : Nat) (st : List AssetDoc) (sym : String) (start_date : Option Nat)
    (fuel : Nat) :
    Option (Except String (List DailyBar × List UpstreamParams)) :=
  match find_one st sym with
  | some doc =>
    match doc.dayline.getLast? with
    | some lastBar =>
      if midnight now ≤ lastBar.date then some (.ok ([], []))
      else fetch_crypto_daily_binance U fuel (some (lastBar.date + oneDay))
    | none => fetch_crypto_daily_binance U fuel start_date
  | none => fetch_crypto_daily_binance U fuel start_date

/-- The skip test of the update loop: `crypto.get('dayline')` is non-empty
and its last date is `>= yesterday`. -/
def isFresh (yesterday : Nat) (lastb : Option DailyBar) : Bool :=
  match lastb with
  | some lb => decide (yesterday ≤ lb.date)
  | none => false

/-- The loop of `update_crypto_daily` (lines 222-262) over the snapshot
`cryptos` (each entry: the symbol and the `$slice: -1` projection of
`dayline`, i.e. the last stored bar).  `yesterday` is
`midnight now - oneDay`.  Returns the final storage and the number of
`update_one` writes performed; a per-asset exception is caught and the loop
continues. -/
def update_go (Ua : SymUpstream) (now fuel : Nat) :
    List (String × Option DailyBar) → List AssetDoc → Nat →
    Option (List AssetDoc × Nat)
  | [], st, w => some (st, w)
  | (sym, lastb) :: rest, st, w =>
    if isFresh (midnight now - oneDay) lastb then
      update_go Ua now fuel rest st w
    else
      match fetch_crypto_daily (Ua sym) now st sym
          (lastb.map (fun b => b.date + oneDay)) fuel with
      | none => none
      | some (.error _) => update_go Ua now fuel rest st w
      | some (.ok (bars, _)) =>
        if bars = [] then update_go Ua now fuel rest st w
        else update_go Ua now fuel rest (updateOnePush st sym bars) (w + 1)

/-- `update_crypto_daily()` (lines 199-268): snapshot every document's
symbol and last bar, then run the per-asset loop. -/
def update_crypto_daily (Ua : SymUpstream) (now fuel : Nat)
    (st : List AssetDoc) : Option (List AssetDoc × Nat) :=
  update_go Ua now fuel (st.map (fun a => (a.symbol, a.dayline.getLast?))) st 0

/-- The loop of `init_crypto_daily` (lines 137-155): for every stored
symbol, fetch with no explicit `start_date` and `$set` the whole `dayline`
to the result; per-asset failures are caught and the loop continues. -/
def init_go (Ua : SymUpstream) (now fuel : Nat) :
    List String → List AssetDoc → Nat → Option (List AssetDoc × Nat)
  | [], st, w => some (st, w)
  | sym :: rest, st, w =>
    match fetch_crypto_daily (Ua sym) now st sym none fuel with
    | none => none
    | some (.error _) => init_go Ua now fuel rest st w
    | some (.ok (bars, _)) =>
      init_go Ua now fuel rest (updateOneSet st sym bars) (w + 1)

/-- `init_crypto_daily()` (lines 121-161). -/
def init_crypto_daily (Ua : SymUpstream) (now fuel : Nat)
    (st : List AssetDoc) : Option (List AssetDoc × Nat) :=
  init_go Ua now fuel (st.map (fun a => a.symbol)) st 0

/-- The two dayline-mutating operations of the system. -/
inductive SyncOp where
  | initDaily
  | updateDaily
deriving DecidableEq, Repr

/-- Run one dayline-mutating operation, keeping only the storage. -/
def runOp (Ua : SymUpstream) (now fuel : Nat) (op : SyncOp)
    (st : List AssetDoc) : Option (List AssetDoc) :=
  match op with
  | .initDaily => (init_crypto_daily Ua now fuel st).map Prod.fst
  | .updateDaily => (update_crypto_daily Ua now fuel st).map Prod.fst

/-- Run a sequence of operations left to right. -/
def runOps (Ua : SymUpstream) (now fuel : Nat) :
    List SyncOp → List AssetDoc → Option (List AssetDoc)
  | [], st => some st
  | op :: rest, st =>
    match runOp Ua now fuel op st with
    | none => none
    | some st' => runOps Ua now fuel rest st'

/-! ## Python binding semantics of the `update_crypto_daily` loop (claim C10)

The `except` handler at lines 260-262 interpolates the local variable
`symbol`, which is assigned only inside the `try` block (line 224, from
`crypto['symbol']`).  This model keeps the Python environment explicit: a
document may lack the `symbol` field (`symbol? = none`, making
`crypto['symbol']` raise `KeyError`), and `env` is the current binding of
the variable `symbol` (`none` = not yet assigned, when a lookup raises
`NameError`).  The rest of the iteration body is abstracted as `body`,
whose `.error` stands for any exception the handler would catch. -/

structure RawDoc where
  symbol? : Option String
  dayline : List DailyBar
deriving DecidableEq, Repr

/-- The per-document loop of `update_crypto_daily` over possibly ill-formed
documents, returning the number of completed iterations or the Python
exception that escaped the loop.  When `crypto['symbol']` raises and the
handler's f-string reads an unbound `symbol`, the `NameError` escapes the
per-asset handler; the outer `except` re-raises it. -/
def update_go_raw (body : String → RawDoc → Except String Unit) :
    List RawDoc → Option String → Except String Nat
  | [], _ => .ok 0
  | d :: rest, env =>
    match d.symbol? with
    | none =>
      match env with
      | none => .error "NameError"
      | some _ => (update_go_raw body rest env).map (· + 1)
    | some s =>
      match body s d with
      | .ok _ => (update_go_raw body rest (some s)).map (· + 1)
      | .error _ => (update_go_raw body rest (some s)).map (· + 1)

/-- `update_crypto_daily` on raw documents: the loop starts with the
variable `symbol` unbound. -/
def update_crypto_daily_raw (body : String → RawDoc → Except String Unit)
    (docs : List RawDoc) : Except String Nat :=
  update_go_raw body docs none

/-- The calendar day of a stored bar (its dedupe key). -/
def barDay (b : DailyBar) : Nat := dayKey b.date

instance : IsTotal DailyBar (fun a b => a.date ≤ b.date) :=
  ⟨fun a b => Nat.le_total a.date b.date⟩

instance : IsTrans DailyBar (fun a b => a.date ≤ b.date) :=
  ⟨fun _ _ _ hab hbc => Nat.le_trans hab hbc⟩

/-- Strictly increasing, duplicate-free dates inside one `dayline`. -/
def StrictDates (l : List DailyBar) : Prop :=
  l.Pairwise (fun a b => a.date < b.date)

/-- The data-model invariant of claim C1 over the whole collection. -/
def DaylineInv (st : List AssetDoc) : Prop :=
  ∀ a ∈ st, StrictDates a.dayline

instance (l : List DailyBar) : Decidable (StrictDates l) := by
  unfold StrictDates
  infer_instance

instance (st : List AssetDoc) : Decidable (DaylineInv st) := by
  unfold DaylineInv
  infer_instance

/-- Ordering of klines by open time: an upstream history is stored
oldest-first, as the Binance API serves it. -/
def KOrd (a b : Kline) : Prop := a.openTime ≤ b.openTime

/-- Every history bar is strictly earlier than one day past `d`: a stored
last date of `d` means the upstream has nothing newer to serve. -/
def HistDone (hist : List Kline) (d : Nat) : Prop :=
  ∀ k ∈ hist, k.openTime < d + oneDay

/-- A document whose last stored bar is dated yesterday (UTC) or later:
the update loop skips it without fetching. -/
def FreshDoc (now : Nat) (a : AssetDoc) : Prop :=
  ∃ lb, a.dayline.getLast? = some lb ∧ midnight now - oneDay ≤ lb.date

/-- A document whose next incremental fetch (against the fixed pure
upstream serving `hist`) returns no bars — so the update loop writes
nothing for it. -/
def QuietDoc (hist : List Kline) (now fuel : Nat) (a : AssetDoc) : Prop :=
  ∃ log, fetch_crypto_daily (pureU hist) now [a] a.symbol
      ((a.dayline.getLast?).map (fun b => b.date + oneDay)) fuel =
    some (.ok ([], log))

/-- After one completed update cycle every document is fresh or quiet;
either way the next cycle leaves it untouched. -/
def PostDoc (hist : List Kline) (now fuel : Nat) (a : AssetDoc) : Prop :=
  FreshDoc now a ∨ QuietDoc hist now fuel a

/-! ### Concrete upstream for the pagination-exhaustion scenario (C2):
1200 daily bars starting at the launch-date floor. -/

def c2K (i : Nat) : Kline := ⟨BINANCE_FLOOR_MS + i * oneDay, 1, 1, 1, 1, 1⟩

def c2Hist : List Kline := (List.range 1200).map c2K

def c2Bars : List DailyBar := (List.range 1200).map (fun i => toBar (c2K i))

/-- The newest open time of the scenario history (day 1199). -/
def c2E : Nat := BINANCE_FLOOR_MS + 1199 * oneDay

/-- The most recent 1000 bars (the probe response and the tail page). -/
def c2S0 : List Kline := (List.range' 200 1000).map c2K

/-- First history page: bars 0-999. -/
def c2P1 : List Kline := (List.range' 0 1000).map c2K

/-- Second history page: bars 1000-1199. -/
def c2P2 : List Kline := (List.range' 1000 200).map c2K

/-- Seen-days set after the first history page. -/
def c2Seen1 : List Nat := ((List.range' 0 1000).map (fun i => 17379 + i)).reverse

/-- Seen-days set after the second history page. -/
def c2Seen2 : List Nat :=
  ((List.range' 1000 200).map (fun i => 17379 + i)).reverse ++ c2Seen1

/-- Collected bars after the first history page. -/
def c2A1 : List DailyBar := (List.range' 0 1000).map (fun i => toBar (c2K i))

/-! # Theorems -/

/-! ## Helper lemmas about the fetch loop -/

theorem processKlines_seen_mono :
    ∀ (ks : List Kline) (all : List DailyBar) (seen : List Nat) (d : Nat),
      d ∈ seen → d ∈ (processKlines ks all seen).2 := by
  intro ks
  induction ks with
  | nil => intro all seen d hd; exact hd
  | cons k rest ih =>
    intro all seen d hd
    rw [processKlines]
    by_cases hm : dayKey k.openTime ∈ seen
    · rw [if_pos hm]; exact ih all seen d hd
    · rw [if_neg hm]; exact ih _ _ d (List.mem_cons_of_mem _ hd)

theorem processKlines_cover :
    ∀ (ks : List Kline) (all : List DailyBar) (seen : List Nat),
      ∀ k ∈ ks, dayKey k.openTime ∈ (processKlines ks all seen).2 := by
  intro ks
  induction ks with
  | nil => intro all seen k hk; simp at hk
  | cons k0 rest ih =>
    intro all seen k hk
    rw [processKlines]
    rcases List.mem_cons.mp hk with rfl | hk'
    · by_cases hm : dayKey k.openTime ∈ seen
      · rw [if_pos hm]
        exact processKlines_seen_mono rest all seen _ hm
      · rw [if_neg hm]
        exact processKlines_seen_mono rest _ _ _ (List.mem_cons_self ..)
    · by_cases hm : dayKey k0.openTime ∈ seen
      · rw [if_pos hm]; exact ih all seen k hk'
      · rw [if_neg hm]; exact ih _ _ k hk'

theorem processKlines_mono :
    ∀ (ks : List Kline) (all : List DailyBar) (seen : List Nat) (b : DailyBar),
      b ∈ all → b ∈ (processKlines ks all seen).1 := by
  intro ks
  induction ks with
  | nil => intro all seen b hb; exact hb
  | cons k rest ih =>
    intro all seen b hb
    rw [processKlines]
    by_cases hm : dayKey k.openTime ∈ seen
    · rw [if_pos hm]; exact ih all seen b hb
    · rw [if_neg hm]; exact ih _ _ b (List.mem_append_left _ hb)

theorem upstreamKlines_start (hist : List Kline) (s : Nat) (e : Option Nat) (L : Nat) :
    upstreamKlines hist ⟨some s, e, L⟩ =
      (hist.filter (fun k =>
        startOk ⟨some s, e, L⟩ k && endOk ⟨some s, e, L⟩ k)).take L := rfl

theorem upstreamKlines_none_none (hist : List Kline) (L : Nat) :
    upstreamKlines hist ⟨none, none, L⟩ = hist.drop (hist.length - L) := by
  simp [upstreamKlines, startOk, endOk]

theorem processKlines_fst_mem :
    ∀ (ks : List Kline) (all : List DailyBar) (seen : List Nat) (b : DailyBar),
      b ∈ (processKlines ks all seen).1 → b ∈ all ∨ ∃ k ∈ ks, b = toBar k := by
  intro ks
  induction ks with
  | nil => intro all seen b hb; exact Or.inl hb
  | cons k rest ih =>
    intro all seen b hb
    rw [processKlines] at hb
    by_cases hmem : dayKey k.openTime ∈ seen
    · rw [if_pos hmem] at hb
      rcases ih all seen b hb with h | ⟨k', hk', hb'⟩
      · exact Or.inl h
      · exact Or.inr ⟨k', List.mem_cons_of_mem _ hk', hb'⟩
    · rw [if_neg hmem] at hb
      rcases ih (all ++ [toBar k]) _ b hb with h | ⟨k', hk', hb'⟩
      · rcases List.mem_append.mp h with h' | h'
        · exact Or.inl h'
        · exact Or.inr ⟨k, List.mem_cons_self .., List.mem_singleton.mp h'⟩
      · exact Or.inr ⟨k', List.mem_cons_of_mem _ hk', hb'⟩

theorem lastTime_mem :
    ∀ (ks : List Kline), ks ≠ [] → ∃ k ∈ ks, k.openTime = lastTime ks := by
  intro ks
  induction ks with
  | nil => intro h; exact absurd rfl h
  | cons k rest ih =>
    intro _
    by_cases hr : rest = []
    · subst hr
      exact ⟨k, List.mem_cons_self .., rfl⟩
    · rcases ih hr with ⟨k', hk', he⟩
      refine ⟨k', List.mem_cons_of_mem _ hk', ?_⟩
      rw [he]
      cases rest with
      | nil => exact absurd rfl hr
      | cons b t => simp [lastTime, List.getLastD]

theorem processKlines_seen_inv :
    ∀ (ks : List Kline) (all : List DailyBar) (seen : List Nat),
      seen.Perm (all.map barDay) → seen.Nodup →
      (processKlines ks all seen).2.Perm ((processKlines ks all seen).1.map barDay) ∧
      (processKlines ks all seen).2.Nodup := by
  intro ks
  induction ks with
  | nil => intro all seen hp hn; exact ⟨hp, hn⟩
  | cons k rest ih =>
    intro all seen hp hn
    rw [processKlines]
    by_cases hm : dayKey k.openTime ∈ seen
    · rw [if_pos hm]
      exact ih all seen hp hn
    · rw [if_neg hm]
      apply ih
      · rw [List.map_append]
        exact (hp.cons _).trans (List.perm_append_singleton _ _).symm
      · exact List.nodup_cons.mpr ⟨hm, hn⟩

theorem pairwise_le_lastTime :
    ∀ (ks : List Kline), ks.Pairwise KOrd → ∀ x ∈ ks, x.openTime ≤ lastTime ks := by
  intro ks
  induction ks with
  | nil => intro _ x hx; simp at hx
  | cons a rest ih =>
    intro hp x hx
    cases hr : rest with
    | nil =>
      subst hr
      rcases List.mem_singleton.mp hx with rfl
      exact Nat.le_refl _
    | cons b t =>
      subst hr
      have hlt : lastTime (a :: b :: t) = lastTime (b :: t) := by
        simp [lastTime, List.getLastD]
      rw [hlt]
      rcases List.mem_cons.mp hx with rfl | hx'
      · rcases lastTime_mem (b :: t) (by simp) with ⟨k', hk', he⟩
        exact he ▸ (List.pairwise_cons.mp hp).1 k' hk'
      · exact ih (List.pairwise_cons.mp hp).2 x hx'

theorem lastTime_drop (l : List Kline) (n : Nat) (h : l.drop n ≠ []) :
    lastTime (l.drop n) = lastTime l := by
  conv_rhs => rw [← List.take_append_drop n l]
  rw [lastTime, lastTime, List.getLastD_eq_getLast?, List.getLastD_eq_getLast?,
    List.getLast?_append]
  cases hgl : (l.drop n).getLast? with
  | none => exact absurd (List.getLast?_eq_none_iff.mp hgl) h
  | some x => rfl

/-- Every successful run of the pagination loop appends its own first
request to the incoming log before anything else. -/
theorem fetchLoop_log_extend (U : UpstreamParams → Except String (List Kline))
    (hs : Bool) :
    ∀ (fuel : Nat) (params : UpstreamParams) (all : List DailyBar)
      (seen : List Nat) (log : List UpstreamParams)
      (all2 : List DailyBar) (log2 : List UpstreamParams),
      fetchLoop U hs fuel params all seen log = some (.ok (all2, log2)) →
      (log ++ [params]) <+: log2 := by
  intro fuel
  induction fuel with
  | zero => intro params all seen log all2 log2 h; simp [fetchLoop] at h
  | succ fuel ih =>
    intro params all seen log all2 log2 h
    rw [fetchLoop] at h
    cases hu : U params with
    | error e => rw [hu] at h; simp at h
    | ok klines =>
      rw [hu] at h
      simp only [] at h
      by_cases hkl : klines = []
      · rw [if_pos hkl] at h
        simp only [Option.some.injEq, Except.ok.injEq, Prod.mk.injEq] at h
        exact h.2 ▸ List.prefix_refl _
      · rw [if_neg hkl] at h
        by_cases hlen : klines.length < 1000
        · rw [if_pos hlen] at h
          by_cases hpop : (!hs && params.endTime.isSome) = true
          · rw [if_pos hpop] at h
            exact (List.prefix_append _ _).trans (ih _ _ _ _ _ _ h)
          · rw [if_neg hpop] at h
            simp only [Option.some.injEq, Except.ok.injEq, Prod.mk.injEq] at h
            exact h.2 ▸ List.prefix_refl _
        · rw [if_neg hlen] at h
          exact (List.prefix_append _ _).trans (ih _ _ _ _ _ _ h)

/-- After the history phase pops its window (or when no `startTime` was
ever set), the loop re-requests the most recent page and finishes within
two further iterations: the suffix page is either short (ending the loop)
or full, in which case the next window starts past the newest bar and
returns nothing. -/
theorem fetchLoop_pure_tail (hist : List Kline) (hsort : hist.Pairwise KOrd)
    (hs : Bool) :
    ∀ (fuel : Nat) (all : List DailyBar) (seen : List Nat)
      (log : List UpstreamParams),
      2 ≤ fuel → seen.Perm (all.map barDay) → seen.Nodup →
      ∃ all2 log2,
        fetchLoop (pureU hist) hs fuel ⟨none, none, 1000⟩ all seen log =
          some (.ok (all2, log2)) ∧
        (∀ b ∈ all, b ∈ all2) ∧
        (∀ b ∈ all2, b ∈ all ∨ ∃ k ∈ hist, b = toBar k) := by
  intro fuel all seen log hfuel hp hn
  match fuel, hfuel with
  | f + 2, _ =>
  rw [fetchLoop]
  simp only [pureU]
  rw [upstreamKlines_none_none]
  by_cases hhe : hist.drop (hist.length - 1000) = []
  · rw [if_pos hhe]
    exact ⟨all, log ++ [⟨none, none, 1000⟩], rfl, fun b hb => hb,
      fun b hb => Or.inl hb⟩
  · rw [if_neg hhe]
    have hsound : ∀ b ∈ (processKlines (hist.drop (hist.length - 1000)) all seen).1,
        b ∈ all ∨ ∃ k ∈ hist, b = toBar k := by
      intro b hb
      rcases processKlines_fst_mem _ _ _ _ hb with h' | ⟨k, hk, hb'⟩
      · exact Or.inl h'
      · exact Or.inr ⟨k, List.mem_of_mem_drop hk, hb'⟩
    by_cases hlen : (hist.drop (hist.length - 1000)).length < 1000
    · rw [if_pos hlen, if_neg (by simp)]
      exact ⟨_, _, rfl, fun b hb => processKlines_mono _ _ _ b hb, hsound⟩
    · rw [if_neg hlen]
      rw [fetchLoop]
      simp only [pureU]
      have hempty : upstreamKlines hist
          ⟨some (lastTime (hist.drop (hist.length - 1000)) + 1), none, 1000⟩ = [] := by
        rw [upstreamKlines_start]
        rw [List.filter_eq_nil_iff.mpr, List.take_nil]
        intro k hk
        have h1 : k.openTime ≤ lastTime hist := pairwise_le_lastTime hist hsort k hk
        rw [← lastTime_drop hist (hist.length - 1000) hhe] at h1
        simp [startOk, endOk]
        omega
      rw [hempty, if_pos rfl]
      exact ⟨_, _, rfl, fun b hb => processKlines_mono _ _ _ b hb, hsound⟩

/-- Master lemma for a windowed pagination run against the pure upstream:
with enough fuel the loop terminates successfully, only grows the
collection, collects only (converted) history bars, and covers every
calendar day present in the requested window. -/
theorem fetchLoop_pure_run (hist : List Kline) (hsort : hist.Pairwise KOrd)
    (hs : Bool) (e : Option Nat) :
    ∀ (fuel s : Nat) (all : List DailyBar) (seen : List Nat)
      (log : List UpstreamParams),
      (hist.filter (fun k =>
        startOk ⟨some s, e, 1000⟩ k && endOk ⟨some s, e, 1000⟩ k)).length + 4 ≤ fuel →
      seen.Perm (all.map barDay) → seen.Nodup →
      ∃ all2 log2,
        fetchLoop (pureU hist) hs fuel ⟨some s, e, 1000⟩ all seen log =
          some (.ok (all2, log2)) ∧
        (∀ b ∈ all, b ∈ all2) ∧
        (∀ b ∈ all2, b ∈ all ∨ ∃ k ∈ hist, b = toBar k) ∧
        (∀ k ∈ hist, (startOk ⟨some s, e, 1000⟩ k && endOk ⟨some s, e, 1000⟩ k) = true →
          ∃ b ∈ all2, barDay b = dayKey k.openTime) ∧
        (hist.filter (fun k =>
          startOk ⟨some s, e, 1000⟩ k && endOk ⟨some s, e, 1000⟩ k) = [] →
          all2 = all) := by
  intro fuel
  induction fuel with
  | zero =>
    intro s all seen log hfuel hp hn
    omega
  | succ f ih =>
    intro s all seen log hfuel hp hn
    rw [fetchLoop]
    simp only [pureU]
    rw [upstreamKlines_start]
    set pred := fun k =>
      startOk ⟨some s, e, 1000⟩ k && endOk ⟨some s, e, 1000⟩ k with hpred
    set W := hist.filter pred with hWdef
    rcases processKlines_seen_inv (W.take 1000) all seen hp hn with ⟨hp', hn'⟩
    have hWsorted : W.Pairwise KOrd := hsort.filter pred
    have hsound0 : ∀ b ∈ (processKlines (W.take 1000) all seen).1,
        b ∈ all ∨ ∃ k ∈ hist, b = toBar k := by
      intro b hb
      rcases processKlines_fst_mem _ _ _ _ hb with h' | ⟨k, hk, hb'⟩
      · exact Or.inl h'
      · exact Or.inr ⟨k, List.mem_of_mem_filter (List.mem_of_mem_take hk), hb'⟩
    have hcov_page : ∀ k ∈ W.take 1000,
        ∃ b ∈ (processKlines (W.take 1000) all seen).1,
          barDay b = dayKey k.openTime := by
      intro k hk
      have hd := processKlines_cover (W.take 1000) all seen k hk
      rcases List.mem_map.mp (hp'.mem_iff.mp hd) with ⟨b, hb, he⟩
      exact ⟨b, hb, he⟩
    by_cases hWe : W.take 1000 = []
    · rw [if_pos hWe]
      have hWnil : W = [] := by
        rcases List.take_eq_nil_iff.mp hWe with h | h
        · omega
        · exact h
      refine ⟨all, log ++ [⟨some s, e, 1000⟩], rfl, fun b hb => hb,
        fun b hb => Or.inl hb, ?_, fun _ => rfl⟩
      intro k hk hpk
      have : k ∈ W := List.mem_filter.mpr ⟨hk, hpk⟩
      rw [hWnil] at this
      simp at this
    · rw [if_neg hWe]
      by_cases hlen : (W.take 1000).length < 1000
      · have hWlen : W.length < 1000 := by
          rw [List.length_take] at hlen
          omega
        have hpage : W.take 1000 = W := List.take_of_length_le (by omega)
        rw [if_pos hlen]
        by_cases hpop :
            (!hs && (⟨some s, e, 1000⟩ : UpstreamParams).endTime.isSome) = true
        · rw [if_pos hpop]
          rcases fetchLoop_pure_tail hist hsort hs f
              (processKlines (W.take 1000) all seen).1
              (processKlines (W.take 1000) all seen).2
              (log ++ [⟨some s, e, 1000⟩]) (by omega) hp' hn' with
            ⟨all2, log2, hrun, hmono, hsound⟩
          refine ⟨all2, log2, hrun, ?_, ?_, ?_, ?_⟩
          · intro b hb
            exact hmono b (processKlines_mono _ _ _ b hb)
          · intro b hb
            rcases hsound b hb with h' | h'
            · exact hsound0 b h'
            · exact Or.inr h'
          · intro k hk hpk
            have hkW : k ∈ W.take 1000 := by
              rw [hpage]
              exact List.mem_filter.mpr ⟨hk, hpk⟩
            rcases hcov_page k hkW with ⟨b, hb, he⟩
            exact ⟨b, hmono b hb, he⟩
          · intro hWnil
            exfalso
            apply hWe
            rw [show W = [] from hWnil]
            rfl
        · rw [if_neg hpop]
          refine ⟨_, _, rfl, fun b hb => processKlines_mono _ _ _ b hb, hsound0,
            ?_, ?_⟩
          · intro k hk hpk
            have hkW : k ∈ W.take 1000 := by
              rw [hpage]
              exact List.mem_filter.mpr ⟨hk, hpk⟩
            exact hcov_page k hkW
          · intro hWnil
            exfalso
            apply hWe
            rw [show W = [] from hWnil]
            rfl
      · rw [if_neg hlen]
        have hplen : (W.take 1000).length = 1000 := by
          rw [List.length_take] at hlen ⊢
          omega
        have hWlong : 1000 ≤ W.length := by
          rw [List.length_take] at hplen
          omega
        set lt := lastTime (W.take 1000) with hltdef
        have hpage_sorted : (W.take 1000).Pairwise KOrd :=
          hWsorted.sublist (List.take_sublist _ _)
        rcases lastTime_mem (W.take 1000) hWe with ⟨k0, hk0, hk0t⟩
        rw [← hltdef] at hk0t
        have hpagele : ∀ x ∈ W.take 1000, x.openTime ≤ lt :=
          pairwise_le_lastTime _ hpage_sorted
        have hs_le : s ≤ lt := by
          have hmem := List.of_mem_filter (List.mem_of_mem_take hk0)
          simp only [hpred] at hmem
          rw [Bool.and_eq_true] at hmem
          rw [← hk0t]
          simpa [startOk] using hmem.1
        have hcross : ∀ y ∈ W.drop 1000, lt ≤ y.openTime := by
          intro y hy
          have hsplit : W.take 1000 ++ W.drop 1000 = W := List.take_append_drop _ _
          have hpa := (List.pairwise_append.mp (hsplit ▸ hWsorted)).2.2
          exact hk0t ▸ hpa k0 hk0 y hy
        have hstep1 : hist.filter (fun k =>
            startOk ⟨some (lt + 1), e, 1000⟩ k &&
            endOk ⟨some (lt + 1), e, 1000⟩ k) =
            W.filter (fun k => decide (lt + 1 ≤ k.openTime)) := by
          conv_rhs => rw [hWdef]
          rw [List.filter_filter]
          apply List.filter_congr
          intro k _
          by_cases h2 : lt + 1 ≤ k.openTime
          · have h1 : s ≤ k.openTime := by omega
            simp [startOk, endOk, hpred, h1, h2]
          · simp [startOk, endOk, hpred, h2]
        have hstep2 : W.filter (fun k => decide (lt + 1 ≤ k.openTime)) =
            (W.drop 1000).filter (fun k => decide (lt + 1 ≤ k.openTime)) := by
          conv_lhs => rw [← List.take_append_drop 1000 W]
          rw [List.filter_append, List.filter_eq_nil_iff.mpr, List.nil_append]
          intro x hx
          have := hpagele x hx
          simp
          omega
        have hmeasure : (hist.filter (fun k =>
            startOk ⟨some (lt + 1), e, 1000⟩ k &&
            endOk ⟨some (lt + 1), e, 1000⟩ k)).length + 4 ≤ f := by
          rw [hstep1, hstep2]
          have h1 := List.length_filter_le
            (fun k => decide (lt + 1 ≤ k.openTime)) (W.drop 1000)
          have h2 : (W.drop 1000).length = W.length - 1000 := List.length_drop _ _
          omega
        rcases ih (lt + 1)
            (processKlines (W.take 1000) all seen).1
            (processKlines (W.take 1000) all seen).2
            (log ++ [⟨some s, e, 1000⟩]) hmeasure hp' hn' with
          ⟨all2, log2, hrun, hmono, hsound, hcov, _⟩
        refine ⟨all2, log2, hrun, ?_, ?_, ?_, ?_⟩
        · intro b hb
          exact hmono b (processKlines_mono _ _ _ b hb)
        · intro b hb
          rcases hsound b hb with h' | h'
          · exact hsound0 b h'
          · exact Or.inr h'
        · intro k hk hpk
          have hkW : k ∈ W := List.mem_filter.mpr ⟨hk, hpk⟩
          rw [← List.take_append_drop 1000 W] at hkW
          rcases List.mem_append.mp hkW with hkt | hkd
          · rcases hcov_page k hkt with ⟨b, hb, he⟩
            exact ⟨b, hmono b hb, he⟩
          · by_cases hge : lt + 1 ≤ k.openTime
            · refine hcov k hk ?_
              have he2 : endOk ⟨some (lt + 1), e, 1000⟩ k =
                  endOk ⟨some s, e, 1000⟩ k := rfl
              rw [Bool.and_eq_true, he2]
              refine ⟨by simpa [startOk] using hge, ?_⟩
              have hpk' := hpk
              simp only [hpred] at hpk'
              rw [Bool.and_eq_true] at hpk'
              exact hpk'.2
            · have hle : k.openTime ≤ lt := by omega
              have hge2 : lt ≤ k.openTime := hcross k hkd
              rcases hcov_page k0 hk0 with ⟨b, hb, he⟩
              refine ⟨b, hmono b hb, ?_⟩
              rw [he, hk0t]
              have hkeq : k.openTime = lt := by omega
              rw [hkeq]
        · intro hWnil
          exfalso
          apply hWe
          rw [show W = [] from hWnil]
          rfl

/-- Two timestamps on weakly ordered days: the earlier one is less than a
day past the later. -/
theorem dayKey_lt_bound (t d : Nat) (h : dayKey t ≤ dayKey d) : t < d + oneDay := by
  simp only [dayKey, oneDay] at h ⊢
  omega

theorem sortedDates_le_getLast :
    ∀ (l : List DailyBar) (lb : DailyBar),
      l.Pairwise (fun a b => a.date ≤ b.date) →
      l.getLast? = some lb → ∀ x ∈ l, x.date ≤ lb.date := by
  intro l
  induction l with
  | nil => intro lb _ h; simp at h
  | cons a rest ih =>
    intro lb hs hl x hx
    cases hr : rest with
    | nil =>
      subst hr
      simp only [List.getLast?_singleton, Option.some.injEq] at hl
      rcases List.mem_singleton.mp hx with rfl
      exact hl ▸ Nat.le_refl _
    | cons b t =>
      subst hr
      have hl' : (b :: t).getLast? = some lb := by rw [← hl]; rfl
      have hlb : lb ∈ b :: t := List.mem_of_getLast?_eq_some hl'
      rcases List.mem_cons.mp hx with rfl | hx'
      · exact (List.pairwise_cons.mp hs).1 lb hlb
      · exact ih lb (List.pairwise_cons.mp hs).2 hl' x hx'

/-- The reference upstream honours the request window. -/
theorem pureU_respects (hist : List Kline) : RespectsWindow (pureU hist) := by
  intro p ks hks k hk
  simp only [pureU, Except.ok.injEq] at hks
  subst hks
  unfold upstreamKlines at hk
  have hk' : k ∈ hist.filter (fun k => startOk p k && endOk p k) := by
    cases hst : p.startTime with
    | some s => rw [hst] at hk; exact List.mem_of_mem_take hk
    | none => rw [hst] at hk; exact List.mem_of_mem_drop hk
  have := List.of_mem_filter hk'
  simpa using this

/-- During an incremental run (a caller-supplied `start_date`, so the
pop-and-restart branch is dead) every collected bar and every issued
request stays at or after the initial lower bound. -/
theorem fetchLoop_inc_facts (U : UpstreamParams → Except String (List Kline))
    (hU : RespectsWindow U) (s0 : Nat) :
    ∀ (fuel s : Nat) (e : Option Nat) (L : Nat) (all : List DailyBar)
      (seen : List Nat) (log : List UpstreamParams)
      (all2 : List DailyBar) (log2 : List UpstreamParams),
      s0 ≤ s →
      fetchLoop U true fuel ⟨some s, e, L⟩ all seen log = some (.ok (all2, log2)) →
      (∀ b ∈ all2, b ∈ all ∨ s0 ≤ b.date) ∧
      (∀ p ∈ log2, p ∈ log ∨ ∃ s', p.startTime = some s' ∧ s0 ≤ s') := by
  intro fuel
  induction fuel with
  | zero => intro s e L all seen log all2 log2 hs0 h; simp [fetchLoop] at h
  | succ fuel ih =>
    intro s e L all seen log all2 log2 hs0 h
    rw [fetchLoop] at h
    cases hu : U ⟨some s, e, L⟩ with
    | error er => rw [hu] at h; simp at h
    | ok klines =>
      rw [hu] at h
      simp only [] at h
      have hwin : ∀ k ∈ klines, s ≤ k.openTime := by
        intro k hk
        have := (hU _ _ hu k hk).1
        simpa [startOk] using this
      have hpr : ∀ b ∈ (processKlines klines all seen).1, b ∈ all ∨ s0 ≤ b.date := by
        intro b hb
        rcases processKlines_fst_mem _ _ _ _ hb with h' | ⟨k, hk, rfl⟩
        · exact Or.inl h'
        · exact Or.inr (hs0.trans (hwin k hk))
      by_cases hkl : klines = []
      · rw [if_pos hkl] at h
        simp only [Option.some.injEq, Except.ok.injEq, Prod.mk.injEq] at h
        refine ⟨fun b hb => Or.inl (h.1 ▸ hb), fun p hp => ?_⟩
        rw [← h.2] at hp
        rcases List.mem_append.mp hp with h' | h'
        · exact Or.inl h'
        · exact Or.inr ⟨s, by rw [List.mem_singleton.mp h'], hs0⟩
      · rw [if_neg hkl] at h
        by_cases hlen : klines.length < 1000
        · rw [if_pos hlen] at h
          rw [if_neg (by simp)] at h
          simp only [Option.some.injEq, Except.ok.injEq, Prod.mk.injEq] at h
          refine ⟨fun b hb => hpr b (h.1 ▸ hb), fun p hp => ?_⟩
          rw [← h.2] at hp
          rcases List.mem_append.mp hp with h' | h'
          · exact Or.inl h'
          · exact Or.inr ⟨s, by rw [List.mem_singleton.mp h'], hs0⟩
        · rw [if_neg hlen] at h
          have hlast : s0 ≤ lastTime klines + 1 := by
            rcases lastTime_mem klines hkl with ⟨k, hk, he⟩
            exact le_trans (hs0.trans (hwin k hk)) (he ▸ Nat.le_succ _)
          rcases ih _ _ _ _ _ _ _ _ hlast h with ⟨hb2, hl2⟩
          refine ⟨fun b hb => ?_, fun p hp => ?_⟩
          · rcases hb2 b hb with h' | h'
            · exact hpr b h'
            · exact Or.inr h'
          · rcases hl2 p hp with h' | h'
            · rcases List.mem_append.mp h' with h'' | h''
              · exact Or.inl h''
              · exact Or.inr ⟨s, by rw [List.mem_singleton.mp h''], hs0⟩
            · exact Or.inr h'

/-- Invert `finishFetch` on a successful result. -/
theorem finishFetch_ok_inv
    (r : Option (Except String (List DailyBar × List UpstreamParams)))
    (bars : List DailyBar) (log : List UpstreamParams)
    (h : finishFetch r = some (.ok (bars, log))) :
    ∃ all0, r = some (.ok (all0, log)) ∧ bars = sortByDate all0 := by
  match r with
  | none => simp [finishFetch] at h
  | some (.error e) => simp [finishFetch] at h
  | some (.ok (all0, log0)) =>
    simp only [finishFetch, Option.some.injEq, Except.ok.injEq, Prod.mk.injEq] at h
    exact ⟨all0, by rw [h.2], h.1.symm⟩

/-- Incremental fetch against the pure upstream: it terminates, and either
returns nothing or returns bars whose last (newest) one dominates — up to
a day — every history bar inside the requested window. -/
theorem fetch_binance_inc_run (hist : List Kline) (hsort : hist.Pairwise KOrd)
    (fuel s0 : Nat) (hfuel : hist.length + 6 ≤ fuel) :
    ∃ bars log,
      fetch_crypto_daily_binance (pureU hist) fuel (some s0) =
        some (.ok (bars, log)) ∧
      (bars = [] ∨ ∃ nl, bars.getLast? = some nl ∧ s0 ≤ nl.date ∧
        ∀ k ∈ hist, s0 ≤ k.openTime → k.openTime < nl.date + oneDay) := by
  have hmeas : (hist.filter (fun k =>
      startOk ⟨some s0, none, 1000⟩ k && endOk ⟨some s0, none, 1000⟩ k)).length + 4 ≤ fuel := by
    have := List.length_filter_le (fun k =>
      startOk ⟨some s0, none, 1000⟩ k && endOk ⟨some s0, none, 1000⟩ k) hist
    omega
  rcases fetchLoop_pure_run hist hsort true none fuel s0 [] [] [] hmeas
      (by simp) List.nodup_nil with ⟨all2, log2, hrun, _, hsound, hcov, _⟩
  refine ⟨sortByDate all2, log2, ?_, ?_⟩
  · rw [fetch_crypto_daily_binance, hrun]
    rfl
  · by_cases hnil : all2 = []
    · left
      rw [hnil]
      rfl
    · right
      have hbne : sortByDate all2 ≠ [] := by
        intro h
        apply hnil
        have := List.length_insertionSort (fun a b => a.date ≤ b.date) all2
        rw [show all2.insertionSort (fun a b => a.date ≤ b.date) = sortByDate all2
          from rfl, h] at this
        exact List.eq_nil_of_length_eq_zero this.symm
      rcases Option.isSome_iff_exists.mp (List.getLast?_isSome.mpr hbne) with
        ⟨nl, hnl⟩
      have hsorted : (sortByDate all2).Pairwise (fun a b => a.date ≤ b.date) :=
        List.sorted_insertionSort _ all2
      have hmax : ∀ x ∈ sortByDate all2, x.date ≤ nl.date :=
        sortedDates_le_getLast _ nl hsorted hnl
      have hlow : ∀ b ∈ all2, s0 ≤ b.date := by
        intro b hb
        rcases fetchLoop_inc_facts (pureU hist) (pureU_respects hist) s0 fuel s0
            none 1000 [] [] [] all2 log2 le_rfl hrun with ⟨hb2, _⟩
        rcases hb2 b hb with h' | h'
        · simp at h'
        · exact h'
      refine ⟨nl, hnl, ?_, ?_⟩
      · exact hlow nl (by
          have := List.mem_of_getLast?_eq_some hnl
          simpa [sortByDate, List.mem_insertionSort] using this)
      · intro k hk hks
        have hpk : (startOk ⟨some s0, none, 1000⟩ k &&
            endOk ⟨some s0, none, 1000⟩ k) = true := by
          simp [startOk, endOk, hks]
        rcases hcov k hk hpk with ⟨b, hb, he⟩
        have hbs : b ∈ sortByDate all2 := by
          simpa [sortByDate, List.mem_insertionSort] using hb
        apply dayKey_lt_bound
        rw [← he, barDay]
        exact Nat.div_le_div_right (hmax b hbs)

/-- Full-history fetch against the pure upstream: it terminates, and either
returns nothing or its newest bar dominates — up to a day — every bar of
the history. -/
theorem fetch_binance_full_run (hist : List Kline) (hsort : hist.Pairwise KOrd)
    (fuel : Nat) (hfuel : hist.length + 6 ≤ fuel) :
    ∃ bars log,
      fetch_crypto_daily_binance (pureU hist) fuel none =
        some (.ok (bars, log)) ∧
      (bars = [] ∨ ∃ nl, bars.getLast? = some nl ∧ HistDone hist nl.date) := by
  rw [fetch_crypto_daily_binance]
  by_cases hhist : hist = []
  · subst hhist
    have hprobe : pureU [] ⟨none, none, 1000⟩ = .ok [] := rfl
    rw [hprobe]
    simp only []
    rw [if_pos trivial]
    rcases fetchLoop_pure_tail [] List.Pairwise.nil false fuel [] []
        [⟨none, none, 1000⟩] (by omega) (by simp) List.nodup_nil with
      ⟨all2, log2, hrun, _, hsound⟩
    have hnil : all2 = [] := by
      rcases all2 with _ | ⟨b, t⟩
      · rfl
      · rcases hsound b (List.mem_cons_self ..) with h | ⟨k, hk, _⟩
        · simp at h
        · simp at hk
    refine ⟨[], log2, ?_, Or.inl rfl⟩
    rw [hrun, hnil]
    rfl
  · have hrec : upstreamKlines hist ⟨none, none, 1000⟩ ≠ [] := by
      rw [upstreamKlines_none_none]
      intro h
      have hl := congrArg List.length h
      rw [List.length_drop] at hl
      have : 0 < hist.length := List.length_pos.mpr hhist
      simp at hl
      omega
    have hprobe : pureU hist ⟨none, none, 1000⟩ =
        .ok (hist.drop (hist.length - 1000)) := by
      rw [pureU]
      rw [upstreamKlines_none_none]
    rw [hprobe]
    simp only []
    rw [upstreamKlines_none_none] at hrec
    rw [if_neg hrec]
    have htE : lastTime (hist.drop (hist.length - 1000)) = lastTime hist :=
      lastTime_drop hist _ hrec
    rw [htE]
    have hmeas : (hist.filter (fun k =>
        startOk ⟨some BINANCE_FLOOR_MS, some (lastTime hist), 1000⟩ k &&
        endOk ⟨some BINANCE_FLOOR_MS, some (lastTime hist), 1000⟩ k)).length + 4 ≤ fuel := by
      have := List.length_filter_le (fun k =>
        startOk ⟨some BINANCE_FLOOR_MS, some (lastTime hist), 1000⟩ k &&
        endOk ⟨some BINANCE_FLOOR_MS, some (lastTime hist), 1000⟩ k) hist
      omega
    rcases fetchLoop_pure_run hist hsort false (some (lastTime hist)) fuel
        BINANCE_FLOOR_MS [] [] [⟨none, none, 1000⟩] hmeas (by simp)
        List.nodup_nil with ⟨all2, log2, hrun, _, hsound, hcov, hemp⟩
    refine ⟨sortByDate all2, log2, ?_, ?_⟩
    · rw [hrun]
      rfl
    · by_cases hnil : all2 = []
      · left
        rw [hnil]
        rfl
      · right
        have hbne : sortByDate all2 ≠ [] := by
          intro h
          apply hnil
          have := List.length_insertionSort (fun a b => a.date ≤ b.date) all2
          rw [show all2.insertionSort (fun a b => a.date ≤ b.date) = sortByDate all2
            from rfl, h] at this
          exact List.eq_nil_of_length_eq_zero this.symm
        rcases Option.isSome_iff_exists.mp (List.getLast?_isSome.mpr hbne) with
          ⟨nl, hnl⟩
        have hsorted : (sortByDate all2).Pairwise (fun a b => a.date ≤ b.date) :=
          List.sorted_insertionSort _ all2
        have hmax : ∀ x ∈ sortByDate all2, x.date ≤ nl.date :=
          sortedDates_le_getLast _ nl hsorted hnl
        rcases lastTime_mem hist hhist with ⟨kE, hkE, hkEt⟩
        by_cases hfloor : BINANCE_FLOOR_MS ≤ lastTime hist
        · have hpk : (startOk ⟨some BINANCE_FLOOR_MS, some (lastTime hist), 1000⟩ kE &&
              endOk ⟨some BINANCE_FLOOR_MS, some (lastTime hist), 1000⟩ kE) = true := by
            simp [startOk, endOk, hkEt, hfloor]
          rcases hcov kE hkE hpk with ⟨b, hb, he⟩
          have hbs : b ∈ sortByDate all2 := by
            simpa [sortByDate, List.mem_insertionSort] using hb
          refine ⟨nl, hnl, ?_⟩
          intro k hk
          apply dayKey_lt_bound
          have h1 : dayKey k.openTime ≤ dayKey kE.openTime := by
            apply Nat.div_le_div_right
            rw [hkEt]
            exact pairwise_le_lastTime hist hsort k hk
          have h2 : dayKey kE.openTime ≤ dayKey nl.date := by
            rw [← he, barDay]
            exact Nat.div_le_div_right (hmax b hbs)
          exact le_trans h1 h2
        · exfalso
          apply hnil
          apply hemp
          rw [List.filter_eq_nil_iff]
          intro k hk
          have hkle : k.openTime ≤ lastTime hist :=
            pairwise_le_lastTime hist hsort k hk
          simp [startOk, endOk]
          omega

theorem find_one_mem (st : List AssetDoc) (sym : String) (doc : AssetDoc)
    (h : find_one st sym = some doc) : doc ∈ st :=
  List.mem_of_find?_eq_some h

/-- The storage-aware fetch depends on storage only through the looked-up
document. -/
theorem fetch_localize (U : UpstreamParams → Except String (List Kline))
    (now : Nat) (st : List AssetDoc) (sym : String) (sd : Option Nat)
    (fuel : Nat) (a : AssetDoc) (hfind : find_one st sym = some a) :
    fetch_crypto_daily U now st sym sd fuel =
      fetch_crypto_daily U now [a] sym sd fuel := by
  have hbeq0 := List.find?_some hfind
  have hbeq : (a.symbol == sym) = true := by simpa using hbeq0
  have hone : find_one [a] sym = some a := by
    simp [find_one, List.find?_cons, hbeq]
  rw [fetch_crypto_daily, fetch_crypto_daily, hfind, hone]

/-- A document whose stored history already dominates the upstream is
quiet: its next incremental fetch returns no bars. -/
theorem quiet_of_histDone (hist : List Kline) (now fuel : Nat)
    (hfuel : 1 ≤ fuel) (a : AssetDoc) (nl : DailyBar)
    (hl : a.dayline.getLast? = some nl) (hd : HistDone hist nl.date) :
    QuietDoc hist now fuel a := by
  have hone : find_one [a] a.symbol = some a := by
    simp [find_one, List.find?_cons]
  rw [QuietDoc, fetch_crypto_daily, hone]
  simp only []
  rw [hl]
  simp only []
  by_cases hfr : midnight now ≤ nl.date
  · rw [if_pos hfr]
    exact ⟨[], rfl⟩
  · rw [if_neg hfr]
    match fuel, hfuel with
    | f + 1, _ =>
    rw [fetch_crypto_daily_binance, fetchLoop]
    simp only [pureU]
    rw [upstreamKlines_start]
    have hempty : hist.filter (fun k =>
        startOk ⟨some (nl.date + oneDay), none, 1000⟩ k &&
        endOk ⟨some (nl.date + oneDay), none, 1000⟩ k) = [] := by
      rw [List.filter_eq_nil_iff]
      intro k hk
      have := hd k hk
      simp [startOk, endOk]
      omega
    rw [hempty, List.take_nil, if_pos rfl]
    exact ⟨[⟨some (nl.date + oneDay), none, 1000⟩], rfl⟩

/-- Processing one stale snapshot entry against the pure upstream: the
fetch succeeds, and the document (extended if bars arrived) ends quiet. -/
theorem update_step_post (hist : List Kline) (now fuel : Nat)
    (hsort : hist.Pairwise KOrd) (hfuel : hist.length + 6 ≤ fuel)
    (a : AssetDoc) (st : List AssetDoc)
    (hfind : find_one st a.symbol = some a) :
    ∃ bars log,
      fetch_crypto_daily (pureU hist) now st a.symbol
          ((a.dayline.getLast?).map (fun b => b.date + oneDay)) fuel =
        some (.ok (bars, log)) ∧
      (bars = [] → QuietDoc hist now fuel a) ∧
      (bars ≠ [] →
        QuietDoc hist now fuel { a with dayline := a.dayline ++ bars }) := by
  rw [fetch_localize (pureU hist) now st a.symbol _ fuel a hfind]
  have hone : find_one [a] a.symbol = some a := by
    simp [find_one, List.find?_cons]
  cases hl : a.dayline.getLast? with
  | none =>
    rw [fetch_crypto_daily, hone]
    simp only []
    rw [hl]
    simp only [Option.map_none']
    rcases fetch_binance_full_run hist hsort fuel hfuel with
      ⟨bars, log, hrun, hchar⟩
    refine ⟨bars, log, hrun, ?_, ?_⟩
    · intro hbe
      rw [QuietDoc, fetch_crypto_daily, hone]
      simp only []
      rw [hl]
      simp only [Option.map_none']
      exact ⟨log, by rw [hrun, hbe]⟩
    · intro hbne
      rcases hchar with h | ⟨nl, hnl, hdone⟩
      · exact absurd h hbne
      · apply quiet_of_histDone hist now fuel (by omega) _ nl ?_ hdone
        show (a.dayline ++ bars).getLast? = some nl
        rw [List.getLast?_append, hnl]
        rfl
  | some lb =>
    rw [fetch_crypto_daily, hone]
    simp only []
    rw [hl]
    simp only []
    by_cases hfr : midnight now ≤ lb.date
    · rw [if_pos hfr]
      refine ⟨[], [], rfl, ?_, fun h => absurd rfl h⟩
      intro _
      rw [QuietDoc, fetch_crypto_daily, hone]
      simp only []
      rw [hl]
      simp only []
      rw [if_pos hfr]
      exact ⟨[], rfl⟩
    · rw [if_neg hfr]
      rcases fetch_binance_inc_run hist hsort fuel (lb.date + oneDay) hfuel with
        ⟨bars, log, hrun, hchar⟩
      refine ⟨bars, log, hrun, ?_, ?_⟩
      · intro hbe
        rw [QuietDoc, fetch_crypto_daily, hone]
        simp only []
        rw [hl]
        simp only []
        rw [if_neg hfr]
        refine ⟨log, ?_⟩
        rw [hrun, hbe]
      · intro hbne
        rcases hchar with h | ⟨nl, hnl, hns, hdone⟩
        · exact absurd h hbne
        · apply quiet_of_histDone hist now fuel (by omega) _ nl ?_ ?_
          · show (a.dayline ++ bars).getLast? = some nl
            rw [List.getLast?_append, hnl]
            rfl
          · intro k hk
            by_cases hks : lb.date + oneDay ≤ k.openTime
            · exact hdone k hk hks
            · have : lb.date < nl.date + 1 := by omega
              have h0 : (0 : Nat) < oneDay := by decide
              omega

theorem find_one_self_of_nodup :
    ∀ (st : List AssetDoc), (st.map AssetDoc.symbol).Nodup →
      ∀ a ∈ st, find_one st a.symbol = some a := by
  intro st
  induction st with
  | nil => intro _ a ha; simp at ha
  | cons b rest ih =>
    intro hnd a ha
    rcases List.mem_cons.mp ha with rfl | ha'
    · simp [find_one, List.find?_cons]
    · have hne : (b.symbol == a.symbol) = false := by
        rw [List.map_cons, List.nodup_cons] at hnd
        have : a.symbol ∈ rest.map AssetDoc.symbol :=
          List.mem_map.mpr ⟨a, ha', rfl⟩
        simp
        intro he
        exact hnd.1 (he ▸ this)
      rw [find_one, List.find?_cons, hne]
      exact ih (by rw [List.map_cons, List.nodup_cons] at hnd; exact hnd.2) a ha'

theorem find_one_updateOnePush_ne :
    ∀ (st : List AssetDoc) (sym s : String) (bars : List DailyBar), s ≠ sym →
      find_one (updateOnePush st sym bars) s = find_one st s := by
  intro st sym s bars hne
  induction st with
  | nil => rfl
  | cons a rest ih =>
    rw [updateOnePush]
    by_cases h : (a.symbol == sym) = true
    · rw [if_pos h]
      have ha : a.symbol = sym := by simpa using h
      have hs : (a.symbol == s) = false := by
        simp [ha]
        exact fun he => hne he.symm
      simp only [find_one, List.find?_cons, hs]
    · rw [if_neg h]
      simp only [find_one, List.find?_cons]
      cases hs : (a.symbol == s) with
      | true => rfl
      | false => exact ih

theorem find_one_updateOnePush_self :
    ∀ (st : List AssetDoc) (sym : String) (bars : List DailyBar) (a : AssetDoc),
      find_one st sym = some a →
      find_one (updateOnePush st sym bars) sym =
        some { a with dayline := a.dayline ++ bars } := by
  intro st sym bars
  induction st with
  | nil => intro a h; simp [find_one] at h
  | cons b rest ih =>
    intro a h
    rw [updateOnePush]
    by_cases hb : (b.symbol == sym) = true
    · rw [if_pos hb]
      rw [find_one, List.find?_cons, hb] at h
      simp only [Option.some.injEq] at h
      rw [find_one, List.find?_cons]
      rw [show (({ b with dayline := b.dayline ++ bars } : AssetDoc).symbol == sym)
        = true from hb]
      rw [h]
    · have hb' : (b.symbol == sym) = false := by simpa using hb
      rw [if_neg hb]
      rw [find_one, List.find?_cons, hb'] at h
      simp only [] at h
      rw [find_one, List.find?_cons, hb']
      simp only []
      exact ih a h

theorem updateOnePush_map_symbol :
    ∀ (st : List AssetDoc) (sym : String) (bars : List DailyBar),
      (updateOnePush st sym bars).map AssetDoc.symbol =
        st.map AssetDoc.symbol := by
  intro st sym bars
  induction st with
  | nil => rfl
  | cons a rest ih =>
    rw [updateOnePush]
    by_cases h : (a.symbol == sym) = true
    · rw [if_pos h]
      rfl
    · rw [if_neg h]
      rw [List.map_cons, List.map_cons, ih]

/-- After a completed update pass (pure, sorted upstream, unique symbols,
enough fuel), symbols are unchanged and every document is fresh or
quiet. -/
theorem update_go_establishes (hist : String → List Kline) (now fuel : Nat)
    (hsort : ∀ sym, (hist sym).Pairwise KOrd)
    (hfuel : ∀ sym, (hist sym).length + 6 ≤ fuel) :
    ∀ (entries : List (String × Option DailyBar)) (st : List AssetDoc)
      (w : Nat) (st' : List AssetDoc) (w' : Nat),
      (st.map AssetDoc.symbol).Nodup →
      (entries.map Prod.fst).Nodup →
      (∀ p ∈ entries, ∃ a, find_one st p.1 = some a ∧ a.symbol = p.1 ∧
        a.dayline.getLast? = p.2) →
      (∀ a ∈ st, a.symbol ∉ entries.map Prod.fst →
        PostDoc (hist a.symbol) now fuel a) →
      update_go (fun sym => pureU (hist sym)) now fuel entries st w =
        some (st', w') →
      st'.map AssetDoc.symbol = st.map AssetDoc.symbol ∧
      (∀ a ∈ st', PostDoc (hist a.symbol) now fuel a) := by
  intro entries
  induction entries with
  | nil =>
    intro st w st' w' hnd _ _ hpost h
    rw [update_go] at h
    simp only [Option.some.injEq, Prod.mk.injEq] at h
    exact ⟨h.1 ▸ rfl, h.1 ▸ fun a ha => hpost a ha (by simp)⟩
  | cons e rest ih =>
    rcases e with ⟨sym, lb⟩
    intro st w st' w' hnd hend hcorr hpost h
    rcases hcorr (sym, lb) (List.mem_cons_self ..) with ⟨a, hfind0, hsyma0, hlast0⟩
    have hfind : find_one st sym = some a := hfind0
    have hsyma : a.symbol = sym := hsyma0
    have hlast : a.dayline.getLast? = lb := hlast0
    have hendr : (rest.map Prod.fst).Nodup := (List.nodup_cons.mp hend).2
    have hsymr : sym ∉ rest.map Prod.fst := by
      have := (List.nodup_cons.mp hend).1
      simpa using this
    rw [update_go] at h
    by_cases hfr : isFresh (midnight now - oneDay) lb
    · rw [if_pos hfr] at h
      have hfresh : FreshDoc now a := by
        cases lb with
        | none => simp [isFresh] at hfr
        | some lb0 =>
          exact ⟨lb0, hlast, by simpa [isFresh] using hfr⟩
      refine ih st w st' w' hnd hendr
        (fun p hp => hcorr p (List.mem_cons_of_mem _ hp)) ?_ h
      intro a' ha' hnr
      by_cases hsy : a'.symbol = sym
      · have ha'a : a' = a := by
          have h1 := find_one_self_of_nodup st hnd a' ha'
          rw [hsy, hfind] at h1
          exact (Option.some.injEq _ _ ▸ h1).symm
        rw [ha'a]
        exact Or.inl hfresh
      · refine hpost a' ha' ?_
        rw [List.map_cons]
        intro hmem
        rcases List.mem_cons.mp hmem with he | he
        · exact hsy he
        · exact hnr he
    · rw [if_neg hfr] at h
      rcases update_step_post (hist sym) now fuel (hsort sym) (hfuel sym) a st
          (hsyma ▸ hfind) with ⟨bars, log, hfetch, hq0, hq1⟩
      rw [hsyma, hlast] at hfetch
      rw [hfetch] at h
      simp only [] at h
      by_cases hbe : bars = []
      · rw [if_pos hbe] at h
        have hquiet : QuietDoc (hist sym) now fuel a := hq0 hbe
        refine ih st w st' w' hnd hendr
          (fun p hp => hcorr p (List.mem_cons_of_mem _ hp)) ?_ h
        intro a' ha' hnr
        by_cases hsy : a'.symbol = sym
        · have ha'a : a' = a := by
            have h1 := find_one_self_of_nodup st hnd a' ha'
            rw [hsy, hfind] at h1
            exact (Option.some.injEq _ _ ▸ h1).symm
          rw [ha'a]
          right
          rw [hsyma]
          exact hquiet
        · refine hpost a' ha' ?_
          rw [List.map_cons]
          intro hmem
          rcases List.mem_cons.mp hmem with he | he
          · exact hsy he
          · exact hnr he
      · rw [if_neg hbe] at h
        have hmap2 : (updateOnePush st sym bars).map AssetDoc.symbol =
            st.map AssetDoc.symbol := updateOnePush_map_symbol st sym bars
        have hnd2 : ((updateOnePush st sym bars).map AssetDoc.symbol).Nodup := by
          rw [hmap2]
          exact hnd
        have hquiet : QuietDoc (hist sym) now fuel
            { a with dayline := a.dayline ++ bars } := hq1 hbe
        have hfind2 : find_one (updateOnePush st sym bars) sym =
            some { a with dayline := a.dayline ++ bars } :=
          find_one_updateOnePush_self st sym bars a hfind
        have hcorr2 : ∀ p ∈ rest, ∃ a', find_one (updateOnePush st sym bars) p.1 =
            some a' ∧ a'.symbol = p.1 ∧ a'.dayline.getLast? = p.2 := by
          intro p hp
          rcases hcorr p (List.mem_cons_of_mem _ hp) with ⟨a', hf', hs', hl'⟩
          refine ⟨a', ?_, hs', hl'⟩
          rw [find_one_updateOnePush_ne st sym p.1 bars ?_]
          · exact hf'
          · intro he
            exact hsymr (he ▸ List.mem_map.mpr ⟨p, hp, rfl⟩)
        have hpost2 : ∀ a' ∈ updateOnePush st sym bars,
            a'.symbol ∉ rest.map Prod.fst →
            PostDoc (hist a'.symbol) now fuel a' := by
          intro a' ha' hnr
          by_cases hsy : a'.symbol = sym
          · have ha'eq : a' = { a with dayline := a.dayline ++ bars } := by
              have h1 := find_one_self_of_nodup (updateOnePush st sym bars) hnd2 a' ha'
              rw [hsy, hfind2] at h1
              exact (Option.some.injEq _ _ ▸ h1).symm
            rw [ha'eq]
            right
            nth_rewrite 1 [hsyma]
            exact hquiet
          · have hf' : find_one st a'.symbol = some a' := by
              rw [← find_one_updateOnePush_ne st sym a'.symbol bars hsy]
              exact find_one_self_of_nodup (updateOnePush st sym bars) hnd2 a' ha'
            refine hpost a' (find_one_mem st a'.symbol a' hf') ?_
            rw [List.map_cons]
            intro hmem
            rcases List.mem_cons.mp hmem with he | he
            · exact hsy he
            · exact hnr he
        rcases ih (updateOnePush st sym bars) (w + 1) st' w' hnd2 hendr hcorr2
          hpost2 h with ⟨hm, hp⟩
        exact ⟨hm.trans hmap2, hp⟩

/-- A pass over documents that are all fresh-or-quiet leaves storage
untouched and performs no write. -/
theorem update_go_quiet (hist : String → List Kline) (now fuel : Nat) :
    ∀ (entries : List (String × Option DailyBar)) (st : List AssetDoc) (w : Nat),
      (∀ p ∈ entries, ∃ a, find_one st p.1 = some a ∧ a.symbol = p.1 ∧
        a.dayline.getLast? = p.2 ∧ PostDoc (hist p.1) now fuel a) →
      update_go (fun sym => pureU (hist sym)) now fuel entries st w =
        some (st, w) := by
  intro entries
  induction entries with
  | nil => intro st w _; rfl
  | cons e rest ih =>
    rcases e with ⟨sym, lb⟩
    intro st w hcorr
    rcases hcorr (sym, lb) (List.mem_cons_self ..) with
      ⟨a, hfind0, hsyma0, hlast0, hpost0⟩
    have hfind : find_one st sym = some a := hfind0
    have hsyma : a.symbol = sym := hsyma0
    have hlast : a.dayline.getLast? = lb := hlast0
    have hpost : PostDoc (hist sym) now fuel a := hpost0
    rw [update_go]
    by_cases hfr : isFresh (midnight now - oneDay) lb
    · rw [if_pos hfr]
      exact ih st w (fun p hp => hcorr p (List.mem_cons_of_mem _ hp))
    · rw [if_neg hfr]
      rcases hpost with hfresh | hquiet
      · exfalso
        rcases hfresh with ⟨lb0, hl0, hy0⟩
        rw [hlast] at hl0
        rw [hl0] at hfr
        simp [isFresh, hy0] at hfr
      · rcases hquiet with ⟨log, hq⟩
        rw [hsyma, hlast] at hq
        rw [fetch_localize (pureU (hist sym)) now st sym
          (lb.map (fun b => b.date + oneDay)) fuel a hfind, hq]
        simp only []
        rw [if_pos trivial]
        exact ih st w (fun p hp => hcorr p (List.mem_cons_of_mem _ hp))

/-- C4 counterexample: "every asset is classified fresh after the first
run" fails.  One asset whose stored history ends long ago against an
upstream with nothing newer: the first run fetches nothing and writes
nothing, and the asset is still classified stale afterwards. -/
theorem claim_C4_counterexample :
    update_crypto_daily (fun _ => pureU []) (10 * oneDay) 7
        [⟨"AssetA", "AUSDT", [⟨oneDay, 1, 1, 1, 1, 1⟩]⟩] =
      some ([⟨"AssetA", "AUSDT", [⟨oneDay, 1, 1, 1, 1, 1⟩]⟩], 0) ∧
    isFresh (midnight (10 * oneDay) - oneDay)
      ((⟨"AssetA", "AUSDT", [⟨oneDay, 1, 1, 1, 1, 1⟩]⟩ : AssetDoc).dayline.getLast?)
      = false := by
  refine ⟨by decide, by decide⟩

/-- C4 (amended): running the daily update twice in succession — same
clock, same deterministic upstream honouring the documented API, sorted
per-symbol histories, unique symbols, enough fuel — performs no storage
write on the second run: the second run returns the first run's storage
unchanged with a write count of zero.  (Assets whose upstream carries
nothing new may remain classified stale and re-fetch, but they receive no
bars and trigger no write.) -/
theorem claim_C4 (hist : String → List Kline) (now fuel : Nat)
    (st st1 : List AssetDoc) (w1 : Nat)
    (hsort : ∀ sym, (hist sym).Pairwise KOrd)
    (hfuel : ∀ sym, (hist sym).length + 6 ≤ fuel)
    (hnd : (st.map AssetDoc.symbol).Nodup)
    (hrun1 : update_crypto_daily (fun sym => pureU (hist sym)) now fuel st =
      some (st1, w1)) :
    update_crypto_daily (fun sym => pureU (hist sym)) now fuel st1 =
      some (st1, 0) := by
  rw [update_crypto_daily] at hrun1
  have hentnd : ((st.map (fun a => (a.symbol, a.dayline.getLast?))).map
      Prod.fst).Nodup := by
    rw [List.map_map]
    exact hnd
  have hcorr1 : ∀ p ∈ st.map (fun a => (a.symbol, a.dayline.getLast?)),
      ∃ a, find_one st p.1 = some a ∧ a.symbol = p.1 ∧
        a.dayline.getLast? = p.2 := by
    intro p hp
    rcases List.mem_map.mp hp with ⟨a, ha, rfl⟩
    exact ⟨a, find_one_self_of_nodup st hnd a ha, rfl, rfl⟩
  have hpost1 : ∀ a ∈ st,
      a.symbol ∉ (st.map (fun a => (a.symbol, a.dayline.getLast?))).map Prod.fst →
      PostDoc (hist a.symbol) now fuel a := by
    intro a ha hnr
    exfalso
    apply hnr
    rw [List.map_map]
    exact List.mem_map.mpr ⟨a, ha, rfl⟩
  rcases update_go_establishes hist now fuel hsort hfuel
      (st.map (fun a => (a.symbol, a.dayline.getLast?))) st 0 st1 w1 hnd hentnd
      hcorr1 hpost1 hrun1 with ⟨hmap, hpost⟩
  have hnd1 : (st1.map AssetDoc.symbol).Nodup := by
    rw [hmap]
    exact hnd
  rw [update_crypto_daily]
  apply update_go_quiet
  intro p hp
  rcases List.mem_map.mp hp with ⟨a, ha, rfl⟩
  exact ⟨a, find_one_self_of_nodup st1 hnd1 a ha, rfl, rfl, hpost a ha⟩

/-- Witness for C4 (amended) at a concrete input: one stale asset, an
upstream holding one newer bar; the first run appends it, the second run
returns the same storage with zero writes. -/
theorem claim_C4_witness :
    update_crypto_daily (fun _ => pureU [⟨BINANCE_FLOOR_MS, 2, 2, 2, 2, 2⟩])
        (BINANCE_FLOOR_MS + 9 * oneDay) 7
        [⟨"AssetA", "AUSDT", [⟨BINANCE_FLOOR_MS, 2, 2, 2, 2, 2⟩]⟩] =
      some ([⟨"AssetA", "AUSDT", [⟨BINANCE_FLOOR_MS, 2, 2, 2, 2, 2⟩]⟩], 0) :=
  claim_C4 (fun _ => [⟨BINANCE_FLOOR_MS, 2, 2, 2, 2, 2⟩])
    (BINANCE_FLOOR_MS + 9 * oneDay) 7
    [⟨"AssetA", "AUSDT", []⟩]
    [⟨"AssetA", "AUSDT", [⟨BINANCE_FLOOR_MS, 2, 2, 2, 2, 2⟩]⟩] 1
    (fun _ => by simp)
    (fun _ => by simp)
    (by decide) (by decide)

/-- C3: (freshness threshold) an asset whose last stored bar is dated on or
after yesterday's UTC midnight is skipped by the update loop with no fetch
and no write; (incremental resume) for a stored asset whose last date `D`
is older than yesterday, the fetch's first upstream request starts exactly
at `D + oneDay`, every issued request window starts at or after `D +
oneDay`, and every returned bar is dated at or after `D + oneDay` — so day
`D` is never re-fetched or duplicated. -/
theorem claim_C3 :
    (∀ (Ua : SymUpstream) (now fuel : Nat) (sym : String) (lb : DailyBar)
      (rest : List (String × Option DailyBar)) (st : List AssetDoc) (w : Nat),
      midnight now - oneDay ≤ lb.date →
      update_go Ua now fuel ((sym, some lb) :: rest) st w =
        update_go Ua now fuel rest st w) ∧
    (∀ (U : UpstreamParams → Except String (List Kline)) (now : Nat)
      (st : List AssetDoc) (sym : String) (s : Option Nat) (fuel : Nat)
      (doc : AssetDoc) (lb : DailyBar) (bars : List DailyBar)
      (log : List UpstreamParams),
      RespectsWindow U →
      find_one st sym = some doc →
      doc.dayline.getLast? = some lb →
      lb.date < midnight now - oneDay →
      fetch_crypto_daily U now st sym s fuel = some (.ok (bars, log)) →
      log.head? = some ⟨some (lb.date + oneDay), none, 1000⟩ ∧
      (∀ p ∈ log, ∃ s', p.startTime = some s' ∧ lb.date + oneDay ≤ s') ∧
      (∀ b ∈ bars, lb.date + oneDay ≤ b.date)) := by
  constructor
  · intro Ua now fuel sym lb rest st w hfresh
    rw [update_go, if_pos (by simpa [isFresh] using hfresh)]
  · intro U now st sym s fuel doc lb bars log hU hdoc hlast hstale hrun
    have hstale' : lb.date < midnight now :=
      lt_of_lt_of_le hstale (Nat.sub_le _ _)
    rw [fetch_crypto_daily, hdoc] at hrun
    simp only [] at hrun
    rw [hlast] at hrun
    simp only [] at hrun
    rw [if_neg (Nat.not_le.mpr hstale')] at hrun
    rw [fetch_crypto_daily_binance] at hrun
    rcases finishFetch_ok_inv _ _ _ hrun with ⟨all0, hF, hbars⟩
    rcases fetchLoop_inc_facts U hU (lb.date + oneDay) fuel (lb.date + oneDay)
      none 1000 [] [] [] all0 log le_rfl hF with ⟨hb, hl⟩
    refine ⟨?_, ?_, ?_⟩
    · rcases fetchLoop_log_extend U true fuel _ [] [] [] all0 log hF with ⟨t, ht⟩
      rw [← ht]
      rfl
    · intro p hp
      rcases hl p hp with h' | h'
      · simp at h'
      · exact h'
    · intro b hb'
      rw [hbars] at hb'
      rcases hb b (by simpa [sortByDate, List.mem_insertionSort] using hb') with h' | h'
      · simp at h'
      · exact h'

/-- Witness for C3 at concrete inputs: a fresh asset (last bar dated
yesterday, `now` = day 5) is skipped unchanged, and a stale asset (last bar
at day 1) triggers a run whose single request starts at day 2 and whose
single returned bar is day 2's. -/
theorem claim_C3_witness :
    (update_go (fun _ => pureU []) (5 * oneDay) 5
        [("BTCUSDT", some ⟨4 * oneDay, 1, 1, 1, 1, 1⟩)] [] 0 =
      update_go (fun _ => pureU []) (5 * oneDay) 5 [] [] 0) ∧
    (List.head? [(⟨some (oneDay + oneDay), none, 1000⟩ : UpstreamParams)] =
        some ⟨some ((⟨oneDay, 1, 1, 1, 1, 1⟩ : DailyBar).date + oneDay), none, 1000⟩ ∧
      (∀ p ∈ [(⟨some (oneDay + oneDay), none, 1000⟩ : UpstreamParams)],
        ∃ s', p.startTime = some s' ∧
          (⟨oneDay, 1, 1, 1, 1, 1⟩ : DailyBar).date + oneDay ≤ s') ∧
      (∀ b ∈ [(⟨2 * oneDay, 2, 2, 2, 2, 2⟩ : DailyBar)],
        (⟨oneDay, 1, 1, 1, 1, 1⟩ : DailyBar).date + oneDay ≤ b.date)) :=
  ⟨claim_C3.1 (fun _ => pureU []) (5 * oneDay) 5 "BTCUSDT"
      ⟨4 * oneDay, 1, 1, 1, 1, 1⟩ [] [] 0 (by decide),
    claim_C3.2 (pureU [⟨2 * oneDay, 2, 2, 2, 2, 2⟩]) (5 * oneDay)
      [⟨"Bitcoin", "BTCUSDT", [⟨oneDay, 1, 1, 1, 1, 1⟩]⟩] "BTCUSDT" none 5
      ⟨"Bitcoin", "BTCUSDT", [⟨oneDay, 1, 1, 1, 1, 1⟩]⟩ ⟨oneDay, 1, 1, 1, 1, 1⟩
      [⟨2 * oneDay, 2, 2, 2, 2, 2⟩] [⟨some (oneDay + oneDay), none, 1000⟩]
      (pureU_respects _) (by decide) (by decide) (by decide) (by decide)⟩

/-! ## Shape of a fetch result: sorted with duplicate-free day keys (C1) -/

theorem fetchLoop_days_nodup (U : UpstreamParams → Except String (List Kline))
    (hs : Bool) :
    ∀ (fuel : Nat) (params : UpstreamParams) (all : List DailyBar)
      (seen : List Nat) (log : List UpstreamParams)
      (all2 : List DailyBar) (log2 : List UpstreamParams),
      seen.Perm (all.map barDay) → seen.Nodup →
      fetchLoop U hs fuel params all seen log = some (.ok (all2, log2)) →
      (all2.map barDay).Nodup := by
  intro fuel
  induction fuel with
  | zero => intro params all seen log all2 log2 _ _ h; simp [fetchLoop] at h
  | succ fuel ih =>
    intro params all seen log all2 log2 hp hn h
    rw [fetchLoop] at h
    cases hu : U params with
    | error e => rw [hu] at h; simp at h
    | ok klines =>
      rw [hu] at h
      simp only [] at h
      rcases processKlines_seen_inv klines all seen hp hn with ⟨hp', hn'⟩
      by_cases hkl : klines = []
      · rw [if_pos hkl] at h
        simp only [Option.some.injEq, Except.ok.injEq, Prod.mk.injEq] at h
        exact h.1 ▸ (hp.nodup_iff.mp hn)
      · rw [if_neg hkl] at h
        by_cases hlen : klines.length < 1000
        · rw [if_pos hlen] at h
          by_cases hpop : (!hs && params.endTime.isSome) = true
          · rw [if_pos hpop] at h
            exact ih _ _ _ _ _ _ hp' hn' h
          · rw [if_neg hpop] at h
            simp only [Option.some.injEq, Except.ok.injEq, Prod.mk.injEq] at h
            exact h.1 ▸ (hp'.nodup_iff.mp hn')
        · rw [if_neg hlen] at h
          exact ih _ _ _ _ _ _ hp' hn' h

/-- Ascending (by date) plus duplicate-free day keys forces strictly
increasing dates. -/
theorem strictDates_of_sorted_nodup (l : List DailyBar)
    (hs : l.Sorted (fun a b => a.date ≤ b.date))
    (hn : (l.map barDay).Nodup) : StrictDates l := by
  have hnd : l.Pairwise (fun a b => barDay a ≠ barDay b) :=
    List.pairwise_map.mp hn
  exact (hs.and hnd).imp
    (fun hab => lt_of_le_of_ne hab.1
      (fun he => hab.2 (by rw [barDay, barDay, he])))

/-- Any successful result of the Binance fetch has strictly increasing,
duplicate-free dates. -/
theorem fetch_binance_strict (U : UpstreamParams → Except String (List Kline))
    (fuel : Nat) (sd : Option Nat) (bars : List DailyBar)
    (log : List UpstreamParams)
    (h : fetch_crypto_daily_binance U fuel sd = some (.ok (bars, log))) :
    StrictDates bars := by
  have key : ∀ (hsb : Bool) (p : UpstreamParams) (lg : List UpstreamParams),
      finishFetch (fetchLoop U hsb fuel p [] [] lg) = some (.ok (bars, log)) →
      StrictDates bars := by
    intro hsb p lg hrun
    rcases finishFetch_ok_inv _ _ _ hrun with ⟨all0, hF, hb⟩
    have hnd := fetchLoop_days_nodup U hsb fuel p [] [] lg all0 log
      (by simp) (by simp) hF
    rw [hb]
    apply strictDates_of_sorted_nodup
    · exact List.sorted_insertionSort _ all0
    · exact (((List.perm_insertionSort _ all0).map barDay).nodup_iff).mpr hnd
  cases sd with
  | some s => rw [fetch_crypto_daily_binance] at h; exact key true _ _ h
  | none =>
    rw [fetch_crypto_daily_binance] at h
    cases hu : U { startTime := none, endTime := none, limit := 1000 } with
    | error e => rw [hu] at h; simp at h
    | ok recent =>
      rw [hu] at h
      simp only [] at h
      exact key false _ _ h

/-- Every bar returned by an incremental fetch is dated at or after the
requested start. -/
theorem fetch_binance_inc_lb (U : UpstreamParams → Except String (List Kline))
    (hU : RespectsWindow U) (fuel s0 : Nat) (bars : List DailyBar)
    (log : List UpstreamParams)
    (h : fetch_crypto_daily_binance U fuel (some s0) = some (.ok (bars, log))) :
    ∀ b ∈ bars, s0 ≤ b.date := by
  intro b hb
  rw [fetch_crypto_daily_binance] at h
  rcases finishFetch_ok_inv _ _ _ h with ⟨all0, hF, hbars⟩
  rcases fetchLoop_inc_facts U hU s0 fuel s0 none 1000 [] [] [] all0 log
    le_rfl hF with ⟨hball, _⟩
  rw [hbars] at hb
  rcases hball b (by simpa [sortByDate, List.mem_insertionSort] using hb) with h' | h'
  · simp at h'
  · exact h'

/-- Any successful result of the storage-aware fetch wrapper has strictly
increasing dates. -/
theorem fetch_wrapper_strict (U : UpstreamParams → Except String (List Kline))
    (now : Nat) (st : List AssetDoc) (sym : String) (sd : Option Nat)
    (fuel : Nat) (bars : List DailyBar) (log : List UpstreamParams)
    (h : fetch_crypto_daily U now st sym sd fuel = some (.ok (bars, log))) :
    StrictDates bars := by
  rw [fetch_crypto_daily] at h
  cases hdoc : find_one st sym with
  | none => rw [hdoc] at h; exact fetch_binance_strict U fuel sd bars log h
  | some doc =>
    rw [hdoc] at h
    simp only [] at h
    cases hl : doc.dayline.getLast? with
    | none => rw [hl] at h; exact fetch_binance_strict U fuel sd bars log h
    | some lb =>
      rw [hl] at h
      simp only [] at h
      by_cases hfr : midnight now ≤ lb.date
      · rw [if_pos hfr] at h
        simp only [Option.some.injEq, Except.ok.injEq, Prod.mk.injEq] at h
        rw [← h.1]
        exact List.Pairwise.nil
      · rw [if_neg hfr] at h
        exact fetch_binance_strict U fuel _ bars log h

/-! ## Storage invariant preservation (claim C1) -/


theorem updateOnePush_no_match :
    ∀ (st : List AssetDoc) (sym : String) (bars : List DailyBar),
      find_one st sym = none → updateOnePush st sym bars = st := by
  intro st sym bars
  induction st with
  | nil => intro _; rfl
  | cons a rest ih =>
    intro h
    rw [find_one, List.find?_cons] at h
    rw [updateOnePush]
    cases hb : (a.symbol == sym) with
    | true => rw [hb] at h; simp at h
    | false =>
      rw [hb] at h
      rw [if_neg (by simp [hb]), ih h]

theorem strictDates_le_getLast :
    ∀ (l : List DailyBar) (lb : DailyBar), StrictDates l →
      l.getLast? = some lb → ∀ x ∈ l, x.date ≤ lb.date := by
  intro l
  induction l with
  | nil => intro lb _ h; simp at h
  | cons a rest ih =>
    intro lb hs hl x hx
    cases hr : rest with
    | nil =>
      subst hr
      simp only [List.getLast?_singleton, Option.some.injEq] at hl
      rcases List.mem_singleton.mp hx with rfl
      exact hl ▸ Nat.le_refl _
    | cons b t =>
      subst hr
      have hl' : (b :: t).getLast? = some lb := by
        rw [← hl]
        rfl
      have hlb : lb ∈ b :: t := List.mem_of_getLast?_eq_some hl'
      rcases List.mem_cons.mp hx with rfl | hx'
      · exact Nat.le_of_lt ((List.pairwise_cons.mp hs).1 lb hlb)
      · exact ih lb (List.pairwise_cons.mp hs).2 hl' x hx'

theorem updateOnePush_inv :
    ∀ (st : List AssetDoc) (sym : String) (bars : List DailyBar),
      DaylineInv st → StrictDates bars →
      (∀ doc, find_one st sym = some doc →
        ∀ x ∈ doc.dayline, ∀ y ∈ bars, x.date < y.date) →
      DaylineInv (updateOnePush st sym bars) := by
  intro st sym bars
  induction st with
  | nil => intro _ _ _ a ha; simp [updateOnePush] at ha
  | cons a rest ih =>
    intro hinv hbars hcross a' ha'
    rw [updateOnePush] at ha'
    by_cases hb : (a.symbol == sym) = true
    · rw [if_pos hb] at ha'
      rcases List.mem_cons.mp ha' with rfl | hm
      · show StrictDates (a.dayline ++ bars)
        refine List.pairwise_append.mpr ⟨hinv a (List.mem_cons_self ..), hbars, ?_⟩
        intro x hx y hy
        exact hcross a (by simp [find_one, List.find?_cons, hb]) x hx y hy
      · exact hinv a' (List.mem_cons_of_mem _ hm)
    · rw [if_neg hb] at ha'
      rcases List.mem_cons.mp ha' with rfl | hm
      · exact hinv a' (List.mem_cons_self ..)
      · have h' : (a.symbol == sym) = false := by simpa using hb
        refine ih (fun d hd => hinv d (List.mem_cons_of_mem _ hd)) hbars ?_ a' hm
        intro doc hdoc
        exact hcross doc (by simp [find_one, List.find?_cons, h']; exact hdoc)

theorem updateOneSet_inv :
    ∀ (st : List AssetDoc) (sym : String) (bars : List DailyBar),
      DaylineInv st → StrictDates bars →
      DaylineInv (updateOneSet st sym bars) := by
  intro st sym bars
  induction st with
  | nil => intro _ _ a ha; simp [updateOneSet] at ha
  | cons a rest ih =>
    intro hinv hbars a' ha'
    rw [updateOneSet] at ha'
    by_cases hb : (a.symbol == sym) = true
    · rw [if_pos hb] at ha'
      rcases List.mem_cons.mp ha' with rfl | hm
      · exact hbars
      · exact hinv a' (List.mem_cons_of_mem _ hm)
    · rw [if_neg hb] at ha'
      rcases List.mem_cons.mp ha' with rfl | hm
      · exact hinv a' (List.mem_cons_self ..)
      · exact ih (fun d hd => hinv d (List.mem_cons_of_mem _ hd)) hbars a' hm

/-- The cross bound for a push: every fetched bar is newer than every bar
already stored in the target document. -/
theorem fetch_wrapper_cross (U : UpstreamParams → Except String (List Kline))
    (hU : RespectsWindow U) (now : Nat) (st : List AssetDoc) (sym : String)
    (sd : Option Nat) (fuel : Nat) (bars : List DailyBar)
    (log : List UpstreamParams) (hinv : DaylineInv st)
    (h : fetch_crypto_daily U now st sym sd fuel = some (.ok (bars, log))) :
    ∀ doc, find_one st sym = some doc →
      ∀ x ∈ doc.dayline, ∀ y ∈ bars, x.date < y.date := by
  intro doc hdoc x hx y hy
  rw [fetch_crypto_daily, hdoc] at h
  simp only [] at h
  cases hl : doc.dayline.getLast? with
  | none =>
    rw [List.getLast?_eq_none_iff.mp hl] at hx
    simp at hx
  | some lb =>
    rw [hl] at h
    simp only [] at h
    by_cases hfr : midnight now ≤ lb.date
    · rw [if_pos hfr] at h
      simp only [Option.some.injEq, Except.ok.injEq, Prod.mk.injEq] at h
      rw [← h.1] at hy
      simp at hy
    · rw [if_neg hfr] at h
      have hxle : x.date ≤ lb.date :=
        strictDates_le_getLast doc.dayline lb
          (hinv doc (find_one_mem st sym doc hdoc)) hl x hx
      have hylb : lb.date + oneDay ≤ y.date :=
        fetch_binance_inc_lb U hU fuel (lb.date + oneDay) bars log h y hy
      have : lb.date < lb.date + oneDay := by
        have : (0 : Nat) < oneDay := by decide
        omega
      omega

theorem update_go_inv (Ua : SymUpstream)
    (hU : ∀ sym, RespectsWindow (Ua sym)) (now fuel : Nat) :
    ∀ (entries : List (String × Option DailyBar)) (st : List AssetDoc)
      (w : Nat) (st' : List AssetDoc) (w' : Nat),
      DaylineInv st →
      update_go Ua now fuel entries st w = some (st', w') →
      DaylineInv st' := by
  intro entries
  induction entries with
  | nil =>
    intro st w st' w' hinv h
    rw [update_go] at h
    simp only [Option.some.injEq, Prod.mk.injEq] at h
    exact h.1 ▸ hinv
  | cons e rest ih =>
    rcases e with ⟨sym, lastb⟩
    intro st w st' w' hinv h
    rw [update_go] at h
    by_cases hfr : isFresh (midnight now - oneDay) lastb
    · rw [if_pos hfr] at h
      exact ih _ _ _ _ hinv h
    · rw [if_neg hfr] at h
      cases hf : fetch_crypto_daily (Ua sym) now st sym
          (lastb.map (fun b => b.date + oneDay)) fuel with
      | none => rw [hf] at h; simp at h
      | some r =>
        rw [hf] at h
        cases r with
        | error e' => exact ih _ _ _ _ hinv h
        | ok pr =>
          rcases pr with ⟨bars, log⟩
          simp only [] at h
          by_cases hb : bars = []
          · rw [if_pos hb] at h
            exact ih _ _ _ _ hinv h
          · rw [if_neg hb] at h
            refine ih _ _ _ _ ?_ h
            exact updateOnePush_inv st sym bars hinv
              (fetch_wrapper_strict (Ua sym) now st sym _ fuel bars log hf)
              (fetch_wrapper_cross (Ua sym) (hU sym) now st sym _ fuel bars log
                hinv hf)

theorem init_go_inv (Ua : SymUpstream) (now fuel : Nat) :
    ∀ (syms : List String) (st : List AssetDoc) (w : Nat)
      (st' : List AssetDoc) (w' : Nat),
      DaylineInv st →
      init_go Ua now fuel syms st w = some (st', w') →
      DaylineInv st' := by
  intro syms
  induction syms with
  | nil =>
    intro st w st' w' hinv h
    rw [init_go] at h
    simp only [Option.some.injEq, Prod.mk.injEq] at h
    exact h.1 ▸ hinv
  | cons sym rest ih =>
    intro st w st' w' hinv h
    rw [init_go] at h
    cases hf : fetch_crypto_daily (Ua sym) now st sym none fuel with
    | none => rw [hf] at h; simp at h
    | some r =>
      rw [hf] at h
      cases r with
      | error e' => exact ih _ _ _ _ hinv h
      | ok pr =>
        rcases pr with ⟨bars, log⟩
        simp only [] at h
        refine ih _ _ _ _ ?_ h
        exact updateOneSet_inv st sym bars hinv
          (fetch_wrapper_strict (Ua sym) now st sym none fuel bars log hf)

/-- C1: strictly increasing, duplicate-free `dayline` dates are an
invariant of every sequence of `init_crypto_daily` / `update_crypto_daily`
runs (with the fetches they invoke), for any upstream that honours the
documented request windows — in particular immediately after every
merge. -/
theorem claim_C1 (Ua : SymUpstream) (now fuel : Nat) (ops : List SyncOp)
    (st st' : List AssetDoc) (hU : ∀ sym, RespectsWindow (Ua sym))
    (hinv : DaylineInv st) (h : runOps Ua now fuel ops st = some st') :
    DaylineInv st' := by
  induction ops generalizing st with
  | nil =>
    rw [runOps] at h
    simp only [Option.some.injEq] at h
    exact h ▸ hinv
  | cons op rest ih =>
    rw [runOps] at h
    cases hop : runOp Ua now fuel op st with
    | none => rw [hop] at h; simp at h
    | some st1 =>
      rw [hop] at h
      refine ih st1 ?_ h
      cases op with
      | initDaily =>
        rw [runOp] at hop
        cases hi : init_crypto_daily Ua now fuel st with
        | none => rw [hi] at hop; simp at hop
        | some pr =>
          rw [hi] at hop
          simp only [Option.map_some', Option.some.injEq] at hop
          rcases pr with ⟨st2, w2⟩
          exact hop ▸ init_go_inv Ua now fuel _ st 0 st2 w2 hinv hi
      | updateDaily =>
        rw [runOp] at hop
        cases hi : update_crypto_daily Ua now fuel st with
        | none => rw [hi] at hop; simp at hop
        | some pr =>
          rw [hi] at hop
          simp only [Option.map_some', Option.some.injEq] at hop
          rcases pr with ⟨st2, w2⟩
          exact hop ▸ update_go_inv Ua hU now fuel _ st 0 st2 w2 hinv hi

/-- Witness for C1: a bootstrap followed by an update over a two-bar
upstream (dated after the exchange launch floor) preserves the invariant on
concrete storage. -/
theorem claim_C1_witness :
    DaylineInv [⟨"AssetA", "AUSDT",
      [⟨BINANCE_FLOOR_MS, 2, 2, 2, 2, 2⟩, ⟨BINANCE_FLOOR_MS + oneDay, 3, 3, 3, 3, 3⟩]⟩] :=
  claim_C1
    (fun _ => pureU [⟨BINANCE_FLOOR_MS, 2, 2, 2, 2, 2⟩,
      ⟨BINANCE_FLOOR_MS + oneDay, 3, 3, 3, 3, 3⟩])
    (BINANCE_FLOOR_MS + 5 * oneDay) 5 [.initDaily, .updateDaily]
    [⟨"AssetA", "AUSDT", []⟩]
    [⟨"AssetA", "AUSDT",
      [⟨BINANCE_FLOOR_MS, 2, 2, 2, 2, 2⟩, ⟨BINANCE_FLOOR_MS + oneDay, 3, 3, 3, 3, 3⟩]⟩]
    (fun _ => pureU_respects _) (by decide) (by decide)

/-! ## Helper lemmas for the bootstrap/incremental comparison (claim C8) -/

theorem updateOneSet_eq_self :
    ∀ (st : List AssetDoc) (sym : String) (bars : List DailyBar),
      (∀ doc, find_one st sym = some doc → doc.dayline = bars) →
      updateOneSet st sym bars = st := by
  intro st sym bars
  induction st with
  | nil => intro _; rfl
  | cons a rest ih =>
    intro hinv
    rw [updateOneSet]
    by_cases h : (a.symbol == sym) = true
    · rw [if_pos h]
      have hd : a.dayline = bars :=
        hinv a (by simp [find_one, List.find?_cons, h])
      rw [← hd]
    · have h' : (a.symbol == sym) = false := by simpa using h
      rw [if_neg h]
      rw [ih (fun doc hdoc =>
        hinv doc (by simp [find_one, List.find?_cons, h']; exact hdoc))]

theorem updateOnePush_eq_set_of_empty :
    ∀ (st : List AssetDoc) (sym : String) (bars : List DailyBar),
      (∀ doc, find_one st sym = some doc → doc.dayline = []) →
      updateOnePush st sym bars = updateOneSet st sym bars := by
  intro st sym bars
  induction st with
  | nil => intro _; rfl
  | cons a rest ih =>
    intro hinv
    rw [updateOnePush, updateOneSet]
    by_cases h : (a.symbol == sym) = true
    · rw [if_pos h, if_pos h]
      have hd : a.dayline = [] :=
        hinv a (by simp [find_one, List.find?_cons, h])
      rw [hd]
      rfl
    · have h' : (a.symbol == sym) = false := by simpa using h
      rw [if_neg h, if_neg h, ih (fun doc hdoc =>
        hinv doc (by simp [find_one, List.find?_cons, h']; exact hdoc))]

theorem find_one_updateOneSet_ne :
    ∀ (st : List AssetDoc) (sym s : String) (bars : List DailyBar), s ≠ sym →
      find_one (updateOneSet st sym bars) s = find_one st s := by
  intro st sym s bars hne
  induction st with
  | nil => rfl
  | cons a rest ih =>
    rw [updateOneSet]
    by_cases h : (a.symbol == sym) = true
    · rw [if_pos h]
      have ha : a.symbol = sym := by simpa using h
      have hs : (a.symbol == s) = false := by
        simp [ha]
        exact fun he => hne he.symm
      simp only [find_one, List.find?_cons, hs]
    · rw [if_neg h]
      simp only [find_one, List.find?_cons]
      cases hs : (a.symbol == s) with
      | true => rfl
      | false => exact ih

/-- Over never-fetched storage (and distinct symbols) the bootstrap loop
and the incremental loop drive storage identically. -/
theorem go_empty_equiv (Ua : SymUpstream) (now fuel : Nat) :
    ∀ (syms : List String) (st : List AssetDoc) (w1 w2 : Nat),
      syms.Nodup →
      (∀ s ∈ syms, ∀ doc, find_one st s = some doc → doc.dayline = []) →
      (init_go Ua now fuel syms st w1).map Prod.fst =
        (update_go Ua now fuel (syms.map (fun s => (s, none))) st w2).map Prod.fst := by
  intro syms
  induction syms with
  | nil => intro st w1 w2 _ _; rfl
  | cons sym rest ih =>
    intro st w1 w2 hnd hinv
    have hndr : rest.Nodup := (List.nodup_cons.mp hnd).2
    have hsym : sym ∉ rest := (List.nodup_cons.mp hnd).1
    have hinvr : ∀ s ∈ rest, ∀ doc, find_one st s = some doc → doc.dayline = [] :=
      fun s hs doc hdoc => hinv s (List.mem_cons_of_mem _ hs) doc hdoc
    rw [List.map_cons, init_go, update_go]
    rw [if_neg (by simp [isFresh])]
    rw [Option.map_none']
    cases hf : fetch_crypto_daily (Ua sym) now st sym none fuel with
    | none => rfl
    | some r =>
      cases r with
      | error e => exact ih st w1 w2 hndr hinvr
      | ok pr =>
        rcases pr with ⟨bars, log⟩
        simp only []
        have hset : updateOnePush st sym bars = updateOneSet st sym bars :=
          updateOnePush_eq_set_of_empty st sym bars
            (fun doc hdoc => hinv sym (List.mem_cons_self ..) doc hdoc)
        have hinv' : ∀ s ∈ rest, ∀ doc,
            find_one (updateOneSet st sym bars) s = some doc → doc.dayline = [] := by
          intro s hs doc hdoc
          rw [find_one_updateOneSet_ne st sym s bars
            (fun he => hsym (he ▸ hs))] at hdoc
          exact hinvr s hs doc hdoc
        by_cases hb : bars = []
        · rw [if_pos hb]
          rw [hb, updateOneSet_eq_self st sym []
            (fun doc hdoc => hinv sym (List.mem_cons_self ..) doc hdoc)]
          exact ih st (w1 + 1) w2 hndr hinvr
        · rw [if_neg hb, hset]
          exact ih (updateOneSet st sym bars) (w1 + 1) (w2 + 1) hndr hinv'

/-- C8 counterexample: the bootstrap path is *not* equivalent to the
incremental path on arbitrary storage.  One stored asset whose single bar
is at today's midnight: `update_crypto_daily` classifies it fresh and
leaves it alone, while `init_crypto_daily` `$set`s its `dayline` to the
empty fetch result, wiping the stored history. -/
theorem claim_C8_counterexample :
    (init_crypto_daily (fun _ => pureU []) (2 * oneDay + 5) 3
        [⟨"AssetA", "AUSDT", [⟨2 * oneDay, 1, 1, 1, 1, 1⟩]⟩]).map Prod.fst =
      some [⟨"AssetA", "AUSDT", []⟩] ∧
    (update_crypto_daily (fun _ => pureU []) (2 * oneDay + 5) 3
        [⟨"AssetA", "AUSDT", [⟨2 * oneDay, 1, 1, 1, 1, 1⟩]⟩]).map Prod.fst =
      some [⟨"AssetA", "AUSDT", [⟨2 * oneDay, 1, 1, 1, 1, 1⟩]⟩] ∧
    (some [(⟨"AssetA", "AUSDT", []⟩ : AssetDoc)] : Option (List AssetDoc)) ≠
      some [⟨"AssetA", "AUSDT", [⟨2 * oneDay, 1, 1, 1, 1, 1⟩]⟩] := by
  refine ⟨by decide, by decide, by decide⟩

/-- C8 (amended): when every stored asset is in the never-fetched state
(empty `dayline`) and symbols are distinct, the bootstrap history fill
`init_crypto_daily` leaves storage exactly as the incremental
`update_crypto_daily` would. -/
theorem claim_C8 (Ua : SymUpstream) (now fuel : Nat) (st : List AssetDoc)
    (hnd : (st.map AssetDoc.symbol).Nodup)
    (hempty : ∀ a ∈ st, a.dayline = []) :
    (init_crypto_daily Ua now fuel st).map Prod.fst =
      (update_crypto_daily Ua now fuel st).map Prod.fst := by
  rw [init_crypto_daily, update_crypto_daily]
  have hmap : st.map (fun a => (a.symbol, a.dayline.getLast?)) =
      (st.map (fun a => a.symbol)).map (fun s => (s, none)) := by
    rw [List.map_map]
    apply List.map_congr_left
    intro a ha
    simp [hempty a ha]
  rw [hmap]
  exact go_empty_equiv Ua now fuel (st.map (fun a => a.symbol)) st 0 0 hnd
    (fun s _ doc hdoc => hempty doc (find_one_mem st s doc hdoc))

/-- Witness for C8 (amended) at a concrete input: one never-fetched asset
against a one-bar upstream; both paths produce the same storage. -/
theorem claim_C8_witness :
    (init_crypto_daily (fun _ => pureU [⟨oneDay, 2, 2, 2, 2, 2⟩]) (5 * oneDay) 5
        [⟨"AssetA", "AUSDT", []⟩]).map Prod.fst =
      (update_crypto_daily (fun _ => pureU [⟨oneDay, 2, 2, 2, 2, 2⟩]) (5 * oneDay) 5
        [⟨"AssetA", "AUSDT", []⟩]).map Prod.fst :=
  claim_C8 (fun _ => pureU [⟨oneDay, 2, 2, 2, 2, 2⟩]) (5 * oneDay) 5
    [⟨"AssetA", "AUSDT", []⟩] (by decide) (by decide)

/-- The per-asset merge relation of claim C6: an update cycle can only
leave a document intact or extend its `dayline` by appending at the end;
`name` and `symbol` are untouched. -/
def MergeRel (a a' : AssetDoc) : Prop :=
  a.name = a'.name ∧ a.symbol = a'.symbol ∧ a.dayline <+: a'.dayline

theorem mergeRel_refl (a : AssetDoc) : MergeRel a a :=
  ⟨rfl, rfl, List.prefix_refl _⟩

theorem forall₂_mergeRel_refl : ∀ st : List AssetDoc, List.Forall₂ MergeRel st st
  | [] => List.Forall₂.nil
  | _ :: t => List.Forall₂.cons (mergeRel_refl _) (forall₂_mergeRel_refl t)

theorem forall₂_mergeRel_trans :
    ∀ {s1 s2 s3 : List AssetDoc}, List.Forall₂ MergeRel s1 s2 →
      List.Forall₂ MergeRel s2 s3 → List.Forall₂ MergeRel s1 s3 := by
  intro s1 s2 s3 h12 h23
  induction h12 generalizing s3 with
  | nil => cases h23; exact List.Forall₂.nil
  | cons hab htail ih =>
    cases h23 with
    | cons hbc htail' =>
      exact List.Forall₂.cons
        ⟨hab.1.trans hbc.1, hab.2.1.trans hbc.2.1, hab.2.2.trans hbc.2.2⟩
        (ih htail')

theorem updateOnePush_mergeRel :
    ∀ (st : List AssetDoc) (sym : String) (bars : List DailyBar),
      List.Forall₂ MergeRel st (updateOnePush st sym bars) := by
  intro st sym bars
  induction st with
  | nil => exact List.Forall₂.nil
  | cons a rest ih =>
    rw [updateOnePush]
    by_cases h : a.symbol == sym
    · rw [if_pos h]
      exact List.Forall₂.cons ⟨rfl, rfl, List.prefix_append _ _⟩
        (forall₂_mergeRel_refl rest)
    · rw [if_neg h]
      exact List.Forall₂.cons (mergeRel_refl a) ih

theorem update_go_mergeRel (Ua : SymUpstream) (now fuel : Nat) :
    ∀ (entries : List (String × Option DailyBar)) (st : List AssetDoc)
      (w : Nat) (st' : List AssetDoc) (w' : Nat),
      update_go Ua now fuel entries st w = some (st', w') →
      List.Forall₂ MergeRel st st' := by
  intro entries
  induction entries with
  | nil =>
    intro st w st' w' h
    rw [update_go] at h
    simp only [Option.some.injEq, Prod.mk.injEq] at h
    exact h.1 ▸ forall₂_mergeRel_refl st
  | cons e rest ih =>
    rcases e with ⟨sym, lastb⟩
    intro st w st' w' h
    rw [update_go] at h
    by_cases hfr : isFresh (midnight now - oneDay) lastb
    · rw [if_pos hfr] at h
      exact ih _ _ _ _ h
    · rw [if_neg hfr] at h
      cases hf : fetch_crypto_daily (Ua sym) now st sym
          (lastb.map (fun b => b.date + oneDay)) fuel with
      | none => rw [hf] at h; simp at h
      | some r =>
        rw [hf] at h
        cases r with
        | error e' => exact ih _ _ _ _ h
        | ok pr =>
          rcases pr with ⟨bars, log⟩
          simp only [] at h
          by_cases hb : bars = []
          · rw [if_pos hb] at h
            exact ih _ _ _ _ h
          · rw [if_neg hb] at h
            exact forall₂_mergeRel_trans (updateOnePush_mergeRel st sym bars)
              (ih _ _ _ _ h)

/-- C6: the per-asset merge is append-only and atomic.  (1) Any completed
update cycle relates old and new storage pointwise: every document keeps
its `name` and `symbol` and its old `dayline` is a prefix of the new one
(bars are only ever appended, never rewritten, and no document appears or
disappears).  (2) If the fetch for an asset returns no bars, storage is
exactly what the remaining iteration produces — no write for that asset.
(3) The same if the asset's fetch raises. -/
theorem claim_C6 :
    (∀ (Ua : SymUpstream) (now fuel : Nat) (st st' : List AssetDoc) (w : Nat),
      update_crypto_daily Ua now fuel st = some (st', w) →
      List.Forall₂ MergeRel st st') ∧
    (∀ (Ua : SymUpstream) (now fuel : Nat) (sym : String)
      (lastb : Option DailyBar) (rest : List (String × Option DailyBar))
      (st : List AssetDoc) (w : Nat) (log : List UpstreamParams),
      fetch_crypto_daily (Ua sym) now st sym
          (lastb.map (fun b => b.date + oneDay)) fuel = some (.ok ([], log)) →
      update_go Ua now fuel ((sym, lastb) :: rest) st w =
        update_go Ua now fuel rest st w) ∧
    (∀ (Ua : SymUpstream) (now fuel : Nat) (sym : String)
      (lastb : Option DailyBar) (rest : List (String × Option DailyBar))
      (st : List AssetDoc) (w : Nat) (e : String),
      fetch_crypto_daily (Ua sym) now st sym
          (lastb.map (fun b => b.date + oneDay)) fuel = some (.error e) →
      update_go Ua now fuel ((sym, lastb) :: rest) st w =
        update_go Ua now fuel rest st w) := by
  refine ⟨?_, ?_, ?_⟩
  · intro Ua now fuel st st' w h
    exact update_go_mergeRel Ua now fuel _ _ _ _ _ h
  · intro Ua now fuel sym lastb rest st w log hf
    rw [update_go]
    by_cases hfr : isFresh (midnight now - oneDay) lastb
    · rw [if_pos hfr]
    · rw [if_neg hfr, hf]
      simp
  · intro Ua now fuel sym lastb rest st w e hf
    rw [update_go]
    by_cases hfr : isFresh (midnight now - oneDay) lastb
    · rw [if_pos hfr]
    · rw [if_neg hfr, hf]

/-- Witness for C6: the completed run of a one-asset storage against an
empty upstream relates old and new storage by the merge relation. -/
theorem claim_C6_witness :
    List.Forall₂ MergeRel [⟨"AssetA", "AUSDT", []⟩] [⟨"AssetA", "AUSDT", []⟩] :=
  claim_C6.1 (fun _ => pureU []) (2 * oneDay) 3
    [⟨"AssetA", "AUSDT", []⟩] [⟨"AssetA", "AUSDT", []⟩] 0 (by decide)

/-- C5: a per-asset failure is caught and iteration continues.  Three
stored assets, all stale (last bar at day 1, `now` = day 5); the second
asset's upstream raises on every request.  The batch completes (`some`),
the first and third assets are extended with their new bars, the second is
left untouched, and exactly two writes happen. -/
theorem claim_C5 :
    update_crypto_daily
      (fun sym =>
        if sym = "BUSDT" then fun _ => .error "UpstreamError"
        else if sym = "AUSDT" then pureU [⟨2 * oneDay, 2, 2, 2, 2, 2⟩]
        else pureU [⟨2 * oneDay, 3, 3, 3, 3, 3⟩, ⟨3 * oneDay, 4, 4, 4, 4, 4⟩])
      (5 * oneDay) 5
      [⟨"AssetA", "AUSDT", [⟨oneDay, 1, 1, 1, 1, 1⟩]⟩,
       ⟨"AssetB", "BUSDT", [⟨oneDay, 1, 1, 1, 1, 1⟩]⟩,
       ⟨"AssetC", "CUSDT", [⟨oneDay, 1, 1, 1, 1, 1⟩]⟩] =
    some
      ([⟨"AssetA", "AUSDT", [⟨oneDay, 1, 1, 1, 1, 1⟩, ⟨2 * oneDay, 2, 2, 2, 2, 2⟩]⟩,
        ⟨"AssetB", "BUSDT", [⟨oneDay, 1, 1, 1, 1, 1⟩]⟩,
        ⟨"AssetC", "CUSDT", [⟨oneDay, 1, 1, 1, 1, 1⟩, ⟨2 * oneDay, 3, 3, 3, 3, 3⟩,
          ⟨3 * oneDay, 4, 4, 4, 4, 4⟩]⟩], 2) := by
  decide

/-- C7: every upstream request is attempted at most `MAX_RETRIES = 3`
times with a fixed `RETRY_DELAY = 5` second sleep between consecutive
attempts; if all three attempts raise, the loop re-raises the underlying
exception of the final attempt; a success on attempt `k` returns its
response after `k` sleeps. -/
theorem claim_C7 {ε α : Type} (net : Nat → Except ε α) :
    MAX_RETRIES = 3 ∧ RETRY_DELAY = 5 ∧
    (∀ v, net 0 = .ok v → make_request net = some (.ok v, [])) ∧
    (∀ e0 v, net 0 = .error e0 → net 1 = .ok v →
      make_request net = some (.ok v, [RETRY_DELAY])) ∧
    (∀ e0 e1 v, net 0 = .error e0 → net 1 = .error e1 → net 2 = .ok v →
      make_request net = some (.ok v, [RETRY_DELAY, RETRY_DELAY])) ∧
    (∀ e0 e1 e2, net 0 = .error e0 → net 1 = .error e1 → net 2 = .error e2 →
      make_request net = some (.error e2, [RETRY_DELAY, RETRY_DELAY])) := by
  refine ⟨rfl, rfl, ?_, ?_, ?_, ?_⟩
  · intro v h0
    simp [make_request, makeRequestGo, MAX_RETRIES, h0]
  · intro e0 v h0 h1
    simp [make_request, makeRequestGo, MAX_RETRIES, h0, h1]
  · intro e0 e1 v h0 h1 h2
    simp [make_request, makeRequestGo, MAX_RETRIES, h0, h1, h2]
  · intro e0 e1 e2 h0 h1 h2
    simp [make_request, makeRequestGo, MAX_RETRIES, h0, h1, h2]

/-- Witness for C7 at a concrete `net`: failure on attempt 0, success on
attempt 1 returns the response after one 5-second sleep. -/
theorem claim_C7_witness :
    make_request (fun i => if i = 0 then (.error "timeout" : Except String Nat) else .ok 7)
      = some (.ok 7, [RETRY_DELAY]) :=
  (claim_C7 (fun i => if i = 0 then (.error "timeout" : Except String Nat) else .ok 7)).2.2.2.1
    "timeout" 7 rfl rfl

/-- C9: when the stored asset has a non-empty `dayline`, the caller's
`start_date` argument is ignored (any two arguments give the same result);
the effective start is recomputed as last stored date + one day, and if the
last stored date is on or after the current UTC midnight the call returns
`[]` with an empty request log (no upstream request at all). -/
theorem claim_C9 (U : UpstreamParams → Except String (List Kline))
    (now fuel : Nat) (st : List AssetDoc) (sym : String)
    (s1 s2 : Option Nat) (doc : AssetDoc) (lastBar : DailyBar)
    (hdoc : find_one st sym = some doc)
    (hlast : doc.dayline.getLast? = some lastBar) :
    fetch_crypto_daily U now st sym s1 fuel = fetch_crypto_daily U now st sym s2 fuel ∧
    (midnight now ≤ lastBar.date →
      fetch_crypto_daily U now st sym s1 fuel = some (.ok ([], []))) ∧
    (lastBar.date < midnight now →
      fetch_crypto_daily U now st sym s1 fuel =
        fetch_crypto_daily_binance U fuel (some (lastBar.date + oneDay))) := by
  refine ⟨?_, ?_, ?_⟩
  · simp [fetch_crypto_daily, hdoc, hlast]
  · intro hfresh
    simp [fetch_crypto_daily, hdoc, hlast, if_pos hfresh]
  · intro hstale
    simp [fetch_crypto_daily, hdoc, hlast, Nat.not_le.mpr hstale]

/-- Witness for C9: a one-asset storage whose single stored bar is at
today's midnight; the fetch ignores the caller's argument and returns `[]`
without an upstream request. -/
theorem claim_C9_witness :
    fetch_crypto_daily (pureU []) (2 * oneDay)
        [⟨"Bitcoin", "BTCUSDT", [⟨2 * oneDay, 1, 1, 1, 1, 1⟩]⟩] "BTCUSDT"
        (some 0) 5
      = some (.ok ([], [])) :=
  ((claim_C9 (pureU []) (2 * oneDay) 5
      [⟨"Bitcoin", "BTCUSDT", [⟨2 * oneDay, 1, 1, 1, 1, 1⟩]⟩] "BTCUSDT"
      (some 0) none ⟨"Bitcoin", "BTCUSDT", [⟨2 * oneDay, 1, 1, 1, 1, 1⟩]⟩
      ⟨2 * oneDay, 1, 1, 1, 1, 1⟩ (by decide) (by decide)).2.1 (by decide))

/-- C10: the per-asset `except` handler interpolates the variable `symbol`,
which is bound only inside the `try`; if the first document lacks a
`symbol` field the handler itself raises `NameError` and the batch aborts
(whatever the rest of the body would have done), whereas the same
ill-formed document in second position is survived because `symbol` still
holds the previous iteration's binding. -/
theorem claim_C10 :
    (∀ body, update_crypto_daily_raw body
        [⟨none, []⟩, ⟨some "BTCUSDT", []⟩] = .error "NameError") ∧
    update_crypto_daily_raw (fun _ _ => .error "UpstreamError")
        [⟨some "BTCUSDT", []⟩, ⟨none, []⟩] = .ok 2 :=
  ⟨fun _ => rfl, rfl⟩

/-! ## The pagination-exhaustion scenario (C2) -/

theorem processKlines_all_seen :
    ∀ (ks : List Kline) (all : List DailyBar) (seen : List Nat),
      (∀ k ∈ ks, dayKey k.openTime ∈ seen) →
      processKlines ks all seen = (all, seen) := by
  intro ks
  induction ks with
  | nil => intro all seen _; rfl
  | cons k rest ih =>
    intro all seen h
    rw [processKlines, if_pos (h k (List.mem_cons_self k rest))]
    exact ih all seen (fun k' hk' => h k' (List.mem_cons_of_mem _ hk'))

theorem processKlines_all_fresh :
    ∀ (ks : List Kline) (all : List DailyBar) (seen : List Nat),
      (ks.map (fun k => dayKey k.openTime)).Nodup →
      (∀ k ∈ ks, dayKey k.openTime ∉ seen) →
      processKlines ks all seen =
        (all ++ ks.map toBar,
          (ks.map (fun k => dayKey k.openTime)).reverse ++ seen) := by
  intro ks
  induction ks with
  | nil => intro all seen _ _; simp [processKlines]
  | cons k rest ih =>
    intro all seen hnd hdisj
    rw [processKlines, if_neg (hdisj k (List.mem_cons_self k rest))]
    rw [List.map_cons, List.nodup_cons] at hnd
    have hdisj' : ∀ k' ∈ rest, dayKey k'.openTime ∉ dayKey k.openTime :: seen := by
      intro k' hk' hmem
      rcases List.mem_cons.mp hmem with heq | hmem'
      · exact hnd.1 (heq ▸ List.mem_map.mpr ⟨k', hk', rfl⟩)
      · exact hdisj k' (List.mem_cons_of_mem _ hk') hmem'
    rw [ih (all ++ [toBar k]) (dayKey k.openTime :: seen) hnd.2 hdisj']
    simp [List.append_assoc]

theorem dayKey_c2K (i : Nat) : dayKey (c2K i).openTime = 17379 + i := by
  show (1501545600000 + i * 86400000) / 86400000 = 17379 + i
  omega

theorem c2P1_keys :
    c2P1.map (fun k => dayKey k.openTime)
      = (List.range' 0 1000).map (fun i => 17379 + i) := by
  rw [c2P1, List.map_map]
  exact List.map_congr_left (fun i _ => dayKey_c2K i)

theorem c2P2_keys :
    c2P2.map (fun k => dayKey k.openTime)
      = (List.range' 1000 200).map (fun i => 17379 + i) := by
  rw [c2P2, List.map_map]
  exact List.map_congr_left (fun i _ => dayKey_c2K i)

theorem c2_keys_nodup (s n : Nat) :
    ((List.range' s n).map (fun i => 17379 + i)).Nodup :=
  (List.nodup_range' s n).map (fun a b h => by omega)

theorem c2_page2_disj : ∀ k ∈ c2P2, dayKey k.openTime ∉ c2Seen1 := by
  intro k hk hmem
  rw [c2P2] at hk
  rcases List.mem_map.mp hk with ⟨i, hi, rfl⟩
  rw [dayKey_c2K] at hmem
  rw [c2Seen1, List.mem_reverse] at hmem
  rcases List.mem_map.mp hmem with ⟨j, hj, hje⟩
  have hi' := List.mem_range'_1.mp hi
  have hj' := List.mem_range'_1.mp hj
  omega

theorem c2_page3_seen : ∀ k ∈ c2S0, dayKey k.openTime ∈ c2Seen2 := by
  intro k hk
  rw [c2S0] at hk
  rcases List.mem_map.mp hk with ⟨i, hi, rfl⟩
  have hi' := List.mem_range'_1.mp hi
  rw [dayKey_c2K, c2Seen2, List.mem_append]
  by_cases hc : i < 1000
  · right
    rw [c2Seen1, List.mem_reverse]
    exact List.mem_map.mpr ⟨i, List.mem_range'_1.mpr ⟨by omega, by omega⟩, rfl⟩
  · left
    rw [List.mem_reverse]
    exact List.mem_map.mpr ⟨i, List.mem_range'_1.mpr ⟨by omega, by omega⟩, rfl⟩

theorem c2_page1 : processKlines c2P1 [] [] = (c2A1, c2Seen1) := by
  rw [processKlines_all_fresh c2P1 [] []
      (by rw [c2P1_keys]; exact c2_keys_nodup 0 1000)
      (fun k _ => List.not_mem_nil _)]
  rw [c2P1_keys, List.nil_append, List.append_nil]
  rw [c2P1, List.map_map]
  rfl

theorem c2_bars_split : c2A1 ++ c2P2.map toBar = c2Bars := by
  rw [c2A1, c2P2, List.map_map]
  rw [show ((toBar ∘ c2K) : Nat → DailyBar) = (fun i => toBar (c2K i)) from rfl]
  rw [← List.map_append, List.range'_append_1]
  rw [c2Bars, List.range_eq_range']

theorem c2_page2 : processKlines c2P2 c2A1 c2Seen1 = (c2Bars, c2Seen2) := by
  rw [processKlines_all_fresh c2P2 c2A1 c2Seen1
      (by rw [c2P2_keys]; exact c2_keys_nodup 1000 200) c2_page2_disj]
  rw [c2P2_keys]
  rw [c2_bars_split]
  rfl

theorem c2_page3 : processKlines c2S0 c2Bars c2Seen2 = (c2Bars, c2Seen2) :=
  processKlines_all_seen c2S0 c2Bars c2Seen2 c2_page3_seen

theorem c2Bars_pairwise_le :
    List.Pairwise (fun a b : DailyBar => a.date ≤ b.date) c2Bars := by
  rw [c2Bars, List.pairwise_map]
  refine (List.pairwise_lt_range 1200).imp ?_
  intro i j h
  show BINANCE_FLOOR_MS + i * oneDay ≤ BINANCE_FLOOR_MS + j * oneDay
  have h1 : oneDay = 86400000 := rfl
  rw [h1]
  omega

theorem c2Bars_sortByDate : sortByDate c2Bars = c2Bars := by
  rw [sortByDate]
  exact List.Sorted.insertionSort_eq c2Bars_pairwise_le

theorem c2Bars_strict : StrictDates c2Bars := by
  unfold StrictDates
  rw [c2Bars, List.pairwise_map]
  refine (List.pairwise_lt_range 1200).imp ?_
  intro i j h
  show BINANCE_FLOOR_MS + i * oneDay < BINANCE_FLOOR_MS + j * oneDay
  have h1 : oneDay = 86400000 := rfl
  rw [h1]
  omega

theorem c2Bars_length : c2Bars.length = 1200 := by
  rw [c2Bars, List.length_map, List.length_range]

set_option maxRecDepth 100000 in
theorem c2_up0 : upstreamKlines c2Hist ⟨none, none, 1000⟩ = c2S0 := by decide

set_option maxRecDepth 100000 in
theorem c2_up1 :
    upstreamKlines c2Hist ⟨some BINANCE_FLOOR_MS, some c2E, 1000⟩ = c2P1 := by
  decide

set_option maxRecDepth 100000 in
theorem c2_up2 :
    upstreamKlines c2Hist
      ⟨some (BINANCE_FLOOR_MS + 999 * oneDay + 1), some c2E, 1000⟩ = c2P2 := by
  decide

set_option maxRecDepth 100000 in
theorem c2_up3 : upstreamKlines c2Hist ⟨some (c2E + 1), none, 1000⟩ = [] := by
  decide

set_option maxRecDepth 100000 in
theorem c2_last0 : lastTime c2S0 = c2E := by decide

set_option maxRecDepth 100000 in
theorem c2_last1 : lastTime c2P1 = BINANCE_FLOOR_MS + 999 * oneDay := by decide

set_option maxRecDepth 100000 in
theorem c2_S0_ne : ¬(c2S0 = []) := by decide

set_option maxRecDepth 100000 in
theorem c2_P1_ne : ¬(c2P1 = []) := by decide

set_option maxRecDepth 100000 in
theorem c2_P2_ne : ¬(c2P2 = []) := by decide

set_option maxRecDepth 100000 in
theorem c2_P1_len : ¬(c2P1.length < 1000) := by decide

set_option maxRecDepth 100000 in
theorem c2_S0_len : ¬(c2S0.length < 1000) := by decide

set_option maxRecDepth 100000 in
theorem c2_P2_len : c2P2.length < 1000 := by decide

/-- Full trace of a `start_date`-less fetch over 1200 stored daily bars:
probe, two history-window pages, tail replay of the most recent 1000 bars,
and an empty past-the-end page - five upstream requests in all. -/
theorem c2_run :
    fetch_crypto_daily_binance (pureU c2Hist) 5 none =
      some (.ok (c2Bars,
        [⟨none, none, 1000⟩,
         ⟨some BINANCE_FLOOR_MS, some c2E, 1000⟩,
         ⟨some (BINANCE_FLOOR_MS + 999 * oneDay + 1), some c2E, 1000⟩,
         ⟨none, none, 1000⟩,
         ⟨some (c2E + 1), none, 1000⟩])) := by
  have hU0 : pureU c2Hist ⟨none, none, 1000⟩ = .ok c2S0 := by
    show Except.ok (upstreamKlines c2Hist ⟨none, none, 1000⟩) = Except.ok c2S0
    rw [c2_up0]
  have hU1 : pureU c2Hist ⟨some BINANCE_FLOOR_MS, some c2E, 1000⟩ = .ok c2P1 := by
    show Except.ok (upstreamKlines c2Hist
      ⟨some BINANCE_FLOOR_MS, some c2E, 1000⟩) = Except.ok c2P1
    rw [c2_up1]
  have hU2 : pureU c2Hist
      ⟨some (BINANCE_FLOOR_MS + 999 * oneDay + 1), some c2E, 1000⟩ = .ok c2P2 := by
    show Except.ok (upstreamKlines c2Hist
      ⟨some (BINANCE_FLOOR_MS + 999 * oneDay + 1), some c2E, 1000⟩) = Except.ok c2P2
    rw [c2_up2]
  have hU3 : pureU c2Hist ⟨some (c2E + 1), none, 1000⟩ = .ok ([] : List Kline) := by
    show Except.ok (upstreamKlines c2Hist
      ⟨some (c2E + 1), none, 1000⟩) = Except.ok ([] : List Kline)
    rw [c2_up3]
  rw [fetch_crypto_daily_binance]
  rw [hU0]
  simp only []
  rw [if_neg c2_S0_ne]
  rw [c2_last0]
  rw [show (5 : Nat) = 4 + 1 from rfl]
  rw [fetchLoop]
  rw [hU1]
  simp only []
  rw [if_neg c2_P1_ne, if_neg c2_P1_len]
  rw [show (processKlines c2P1 [] []).1 = c2A1 from by rw [c2_page1]]
  rw [show (processKlines c2P1 [] []).2 = c2Seen1 from by rw [c2_page1]]
  rw [c2_last1]
  rw [show (4 : Nat) = 3 + 1 from rfl]
  rw [fetchLoop]
  rw [hU2]
  simp only []
  rw [if_neg c2_P2_ne, if_pos c2_P2_len]
  rw [show (processKlines c2P2 c2A1 c2Seen1).1 = c2Bars from by rw [c2_page2]]
  rw [show (processKlines c2P2 c2A1 c2Seen1).2 = c2Seen2 from by rw [c2_page2]]
  rw [if_pos (show (!false && (Option.some c2E).isSome) = true from rfl)]
  rw [show (3 : Nat) = 2 + 1 from rfl]
  rw [fetchLoop]
  rw [hU0]
  simp only []
  rw [if_neg c2_S0_ne, if_neg c2_S0_len]
  rw [show (processKlines c2S0 c2Bars c2Seen2).1 = c2Bars from by rw [c2_page3]]
  rw [show (processKlines c2S0 c2Bars c2Seen2).2 = c2Seen2 from by rw [c2_page3]]
  rw [c2_last0]
  rw [show (2 : Nat) = 1 + 1 from rfl]
  rw [fetchLoop]
  rw [hU3]
  simp only []
  rw [if_pos trivial]
  rw [finishFetch]
  rw [c2Bars_sortByDate]
  simp only [List.cons_append, List.nil_append]

/-- **C2** (counterexample).  In the spec's pagination-exhaustion scenario - a
full-history fetch (no `since` bound) against an upstream holding 1200 daily
bars, whose history window returns exactly 1000 bars and then 200 bars - the
client does not issue exactly two page requests: the complete run issues five
upstream requests (probe, two window pages, a tail page repeating the most
recent 1000 bars, and a final empty page). -/
theorem claim_C2_counterexample :
    fetch_crypto_daily_binance (pureU c2Hist) 5 none =
      some (.ok (c2Bars,
        [⟨none, none, 1000⟩,
         ⟨some BINANCE_FLOOR_MS, some c2E, 1000⟩,
         ⟨some (BINANCE_FLOOR_MS + 999 * oneDay + 1), some c2E, 1000⟩,
         ⟨none, none, 1000⟩,
         ⟨some (c2E + 1), none, 1000⟩])) ∧
    ([⟨none, none, 1000⟩,
      ⟨some BINANCE_FLOOR_MS, some c2E, 1000⟩,
      ⟨some (BINANCE_FLOOR_MS + 999 * oneDay + 1), some c2E, 1000⟩,
      ⟨none, none, 1000⟩,
      ⟨some (c2E + 1), none, 1000⟩] : List UpstreamParams).length ≠ 2 :=
  ⟨c2_run, by decide⟩

/-- **C2** (amended).  For a full-history fetch (no `since` bound) against an
upstream holding 1200 daily bars - the history window returning exactly 1000
bars and then 200 bars - the client issues five upstream requests, not two: a
probe of the most recent bars to learn the newest timestamp, two pages of the
window from the fixed launch-date floor up to that timestamp (1000 bars, then
200), a tail page repeating the most recent 1000 bars (all removed by the
calendar-day deduplication), and a final empty page; it returns all 1200 bars,
deduplicated and sorted ascending by date (strictly increasing dates). -/
theorem claim_C2 :
    fetch_crypto_daily_binance (pureU c2Hist) 5 none =
      some (.ok (c2Bars,
        [⟨none, none, 1000⟩,
         ⟨some BINANCE_FLOOR_MS, some c2E, 1000⟩,
         ⟨some (BINANCE_FLOOR_MS + 999 * oneDay + 1), some c2E, 1000⟩,
         ⟨none, none, 1000⟩,
         ⟨some (c2E + 1), none, 1000⟩])) ∧
    ([⟨none, none, 1000⟩,
      ⟨some BINANCE_FLOOR_MS, some c2E, 1000⟩,
      ⟨some (BINANCE_FLOOR_MS + 999 * oneDay + 1), some c2E, 1000⟩,
      ⟨none, none, 1000⟩,
      ⟨some (c2E + 1), none, 1000⟩] : List UpstreamParams).length = 5 ∧
    c2Bars.length = 1200 ∧ StrictDates c2Bars :=
  ⟨c2_run, by decide, c2Bars_length, c2Bars_strict⟩


end CryptoSync

